import Mathlib

/-!
Shallow embedding of the smart-study-planner backend
(`app/controllers/study_planner_controller.py` together with the data model in
`app/models/study_plan.py`), and proofs of the specification claims about it.

Modelling conventions:
* Python `float` hour quantities are embedded as `ℚ`; all the controller's
  arithmetic on them (min, subtraction, division, comparison against the
  `0.01` / `0.1` / `0.5` literals) is exact rational arithmetic.
* Python `date` values are embedded as `ℤ` (a count of days); day `0` is a
  Monday, so `date.weekday()` is `d % 7` and `weekday() >= 5` is `5 ≤ d % 7`.
* Python `time`-of-day values are embedded as `ℚ` hours since midnight; the
  `datetime.combine(...) + timedelta(...)).time()` idiom wraps modulo 24 h,
  embedded as `wrap24`.
* The controller mutates per-subject dictionaries in place; here every
  function returns the updated record.  Sessions are appended to
  `day_sessions` in the source; here each call returns the list of events it
  emitted (sessions and the breaks it inserted, in order) and the caller
  appends them.
-/

namespace StudyPlanner

/-- Importance levels, `Literal["High", "Medium", "Low"]` in the model. -/
inductive Importance where
  | High
  | Medium
  | Low
deriving DecidableEq

/-- Input topic (`Topic` in `study_plan.py`). -/
structure Topic where
  name : String
  estimated_hours : ℚ
  difficulty : ℤ
  completed : Bool
deriving DecidableEq

/-- Input subject (`Subject` in `study_plan.py`). -/
structure Subject where
  name : String
  topics : List Topic
  exam_date : Option ℤ
  importance : Importance
  difficulty : ℤ
deriving DecidableEq

/-- Preferences (`StudyPreferences` in `study_plan.py`); only the fields the
engine reads are embedded (`time_blocks`, `study_style`, `session_length`,
`weekly_revision` and the user profile are never consulted by the
controller).  `break_days = None` is embedded as the empty list, which has
the same falsy behaviour in the two guards that read it. -/
structure StudyPreferences where
  weekday_hours : ℚ
  weekend_hours : ℚ
  break_duration : ℚ
  session_duration : ℚ
  revision_days_before : ℤ
  break_days : List ℤ
deriving DecidableEq

/-- The engine's input (`StudyPlanRequest`). -/
structure StudyPlanRequest where
  subjects : List Subject
  start_date : ℤ
  end_date : ℤ
  preferences : StudyPreferences
deriving DecidableEq

/-- An emitted session (`StudySession`). -/
structure Session where
  subject : String
  topic : String
  date : ℤ
  start_time : ℚ
  end_time : ℚ
  duration_hours : ℚ
  session_type : String
deriving DecidableEq

/-- A day of the response (`StudyDay`). -/
structure StudyDay where
  date : ℤ
  sessions : List Session
deriving DecidableEq

/-- An unallocated-topic entry, the dict
`\x7bsubject, topic, hours_remaining\x7d` built at lines 329-333. -/
structure UnallocEntry where
  subject : String
  topic : String
  hours_remaining : ℚ
deriving DecidableEq

/-- Engine-internal per-topic state, the dict built at lines 116-122. -/
structure TopicData where
  name : String
  hours_needed : ℚ
  remaining_hours : ℚ
  difficulty : ℤ
  completed : Bool
deriving DecidableEq

/-- Engine-internal per-subject state, the dict built at lines 124-133. -/
structure SubjData where
  name : String
  exam_date : Option ℤ
  importance : Importance
  topics : List TopicData
  current_topic_index : ℕ
  needs_revision : Bool
  revision_completed : Bool
  subject_completed : Bool
deriving DecidableEq

/-- What an allocator call appends to `day_sessions`, together with the
breaks it inserts: both are recorded so that day-budget accounting over
breaks is statable. -/
inductive Event where
  | session (s : Session)
  | brk (d : ℚ)
deriving DecidableEq

def Event.isSession : Event → Bool
  | .session _ => true
  | .brk _ => false

/-- The sessions of an event list, in order (this is the `day_sessions`
list of the source, which only ever receives sessions). -/
def sessionsOf (evs : List Event) : List Session :=
  evs.filterMap fun e => match e with
    | .session s => some s
    | .brk _ => none

/-- Sum of all durations in an event list: session hours plus every
inserted break.  This is exactly what each allocator call reports as
`hours_used`. -/
def fullSum : List Event → ℚ
  | [] => 0
  | .session s :: r => s.duration_hours + fullSum r
  | .brk b :: r => b + fullSum r

/-- Sum of the session durations plus only those breaks that are inserted
*between* sessions, i.e. breaks that some later session follows.  A break
trailing the last session of a day separates nothing and is not counted. -/
def interSum : List Event → ℚ
  | [] => 0
  | .session s :: r => s.duration_hours + interSum r
  | .brk b :: r => (if r.any Event.isSession then b else 0) + interSum r

/-- Sum of session durations only. -/
def durSum (l : List Session) : ℚ :=
  (l.map Session.duration_hours).sum

/-- `(datetime.combine(today, t) + timedelta(hours=d)).time()` wraps the
clock modulo 24 hours. -/
def wrap24 (t : ℚ) : ℚ := t - 24 * ⌊t / 24⌋

/-- `current_date.weekday() >= 5` (line 52 / 150). -/
def isWeekend (d : ℤ) : Bool := 5 ≤ d % 7

/-- The day's hour budget (lines 152-153):
`weekend_hours if is_weekend else weekday_hours`. -/
def dayBudget (prefs : StudyPreferences) (d : ℤ) : ℚ :=
  if isWeekend d then prefs.weekend_hours else prefs.weekday_hours

/-- Python `round(x, 1)` at line 332, embedded as rounding to the nearest
tenth (Mathlib `round`, half-up; Python rounds float ties to even — the
claims do not depend on the tie rule). -/
def round1 (q : ℚ) : ℚ := (round (q * 10) : ℤ) / 10

/-- Result of `_add_regular_session`'s topic loop (lines 352-402). -/
structure RegResult where
  hours_used : ℚ
  new_time : ℚ
  topics : List TopicData
  index : ℕ
  ran_out : Bool
  events : List Event
deriving DecidableEq

/-- The `while subject["current_topic_index"] < len(subject["topics"])`
loop of `_add_regular_session` (lines 352-402).  `ran_out = true` is the
fall-through at lines 400-402 that marks the subject completed.
The loop advances `idx` on every iteration that does not return, so its
body runs at most `topics.length - idx` times; recursion is driven by a
`fuel` counter that the wrapper seeds with `topics.length`, making the
fuel-exhaustion case unreachable (see `addRegularGo_fuel`). -/
def addRegularGo (sname : String) (cd : ℤ) (topics : List TopicData)
    (current_time avail maxSess brkDur : ℚ) : ℕ → ℕ → RegResult
  | 0, idx =>
    { hours_used := 0, new_time := current_time, topics := topics, index := idx,
      ran_out := decide (topics.length ≤ idx), events := [] }
  | fuel + 1, idx =>
  if h : idx < topics.length then
    let topic := topics.get ⟨idx, h⟩
    if topic.remaining_hours ≤ 1/100 ∨ topic.completed then
      -- move to next topic if current one is completed (lines 355-358)
      addRegularGo sname cd topics current_time avail maxSess brkDur fuel (idx + 1)
    else
      -- session_duration = min(max_session_duration, available_hours, remaining)
      let dur := min maxSess (min avail topic.remaining_hours)
      let endT := wrap24 (current_time + dur)
      let sess : Session :=
        { subject := sname, topic := topic.name, date := cd,
          start_time := current_time, end_time := endT,
          duration_hours := dur, session_type := "regular" }
      let topic1 : TopicData := { topic with remaining_hours := topic.remaining_hours - dur }
      let topic2 : TopicData :=
        if topic1.remaining_hours ≤ 1/100 then { topic1 with completed := true } else topic1
      let idx2 := if topic1.remaining_hours ≤ 1/100 then idx + 1 else idx
      let topics2 := topics.set idx topic2
      if avail - dur > 1/100 then
        -- still time after this session: insert a break (lines 392-396)
        { hours_used := dur + brkDur, new_time := wrap24 (current_time + dur + brkDur),
          topics := topics2, index := idx2, ran_out := false,
          events := [.session sess, .brk brkDur] }
      else
        { hours_used := dur, new_time := endT,
          topics := topics2, index := idx2, ran_out := false,
          events := [.session sess] }
  else
    { hours_used := 0, new_time := current_time, topics := topics, index := idx,
      ran_out := true, events := [] }

/-- What an allocator call hands back to the engine. -/
structure AllocResult where
  hours_used : ℚ
  new_time : ℚ
  subj : SubjData
  events : List Event
deriving DecidableEq

/-- `_add_regular_session` (lines 337-402). -/
def addRegularSession (s : SubjData) (cd : ℤ)
    (current_time avail maxSess brkDur : ℚ) : AllocResult :=
  if s.subject_completed then
    { hours_used := 0, new_time := current_time, subj := s, events := [] }
  else
    let r := addRegularGo s.name cd s.topics current_time avail maxSess brkDur
      s.topics.length s.current_topic_index
    let s2 : SubjData :=
      { s with topics := r.topics, current_topic_index := r.index, subject_completed := r.ran_out }
    { hours_used := r.hours_used, new_time := r.new_time, subj := s2, events := r.events }

/-- Result of `_add_revision_session`'s loop. -/
structure RevResult where
  hours_used : ℚ
  new_time : ℚ
  topics_revised : ℕ
  events : List Event
deriving DecidableEq

/-- The `while topic_index < len(...) and topics_revised < topics_to_revise
and remaining_time > 0.1` loop of `_add_revision_session`
(lines 432-479).  Every iteration advances `topic_index`, so the body runs
at most `topics.length` times; recursion is driven by a `fuel` counter that
the wrapper seeds with `topics.length`, making the fuel-exhaustion case
unreachable (see `addRevisionGo_fuel`).  When fuel runs out the loop
condition `ti < topics.length` is necessarily false, so that case returns
the loop-exit value. -/
def addRevisionGo (sname : String) (cd : ℤ) (topics : List TopicData)
    (timePerTopic maxSess brkDur : ℚ) (quota : ℕ) :
    ℕ → ℕ → ℕ → ℚ → ℚ → ℚ → RevResult
  | 0, _, revised, _, hoursUsed, ct =>
    { hours_used := hoursUsed, new_time := ct, topics_revised := revised, events := [] }
  | fuel + 1, ti, revised, remaining, hoursUsed, ct =>
  if h : ti < topics.length ∧ revised < quota ∧ remaining > 1/10 then
    let topic := topics.get ⟨ti, h.1⟩
    let dur := min maxSess (min remaining timePerTopic)
    if dur < 1/10 then
      -- skip if less than 6 minutes (lines 445-447)
      addRevisionGo sname cd topics timePerTopic maxSess brkDur quota
        fuel (ti + 1) revised remaining hoursUsed ct
    else
      let endT := wrap24 (ct + dur)
      let sess : Session :=
        { subject := sname, topic := "Revision: " ++ topic.name, date := cd,
          start_time := ct, end_time := endT,
          duration_hours := dur, session_type := "revision" }
      let rem1 := remaining - dur
      if rem1 > 1/10 then
        -- add a break (lines 472-477)
        let r := addRevisionGo sname cd topics timePerTopic maxSess brkDur quota
          fuel (ti + 1) (revised + 1) (rem1 - brkDur) (hoursUsed + dur + brkDur)
          (wrap24 (ct + dur + brkDur))
        { r with events := .session sess :: .brk brkDur :: r.events }
      else
        let r := addRevisionGo sname cd topics timePerTopic maxSess brkDur quota
          fuel (ti + 1) (revised + 1) rem1 (hoursUsed + dur) endT
        { r with events := .session sess :: r.events }
  else
    { hours_used := hoursUsed, new_time := ct, topics_revised := revised, events := [] }

/-- `_add_revision_session` (lines 404-485).  It never touches the topic
list; the only state it may change is `revision_completed`
(lines 481-483). -/
def addRevisionSession (s : SubjData) (cd : ℤ)
    (current_time avail maxSess brkDur : ℚ) : AllocResult :=
  if s.revision_completed ∨ s.subject_completed then
    { hours_used := 0, new_time := current_time, subj := s, events := [] }
  else
    let total_topics := (s.topics.filter fun t => !t.completed).length
    let topics_to_revise := min total_topics 5
    if topics_to_revise = 0 then
      { hours_used := 0, new_time := current_time, subj := s, events := [] }
    else
      let time_per_topic := min (1/2) (avail / (topics_to_revise : ℚ))
      let r := addRevisionGo s.name cd s.topics time_per_topic maxSess brkDur
        topics_to_revise s.topics.length 0 0 avail 0 current_time
      let s2 := if min 3 total_topics ≤ r.topics_revised
        then { s with revision_completed := true } else s
      { hours_used := r.hours_used, new_time := r.new_time, subj := s2,
        events := r.events }

/-! ## The day loop (`_generate_rule_based_schedule`, lines 94-335) -/

/-- The per-day mutable state of the schedule loop: the subject records, the
shrinking `hours_left`, the clock `current_time`, the `day_sessions` list
(with the inserted breaks recorded alongside), and the day's entry of
`high_importance_coverage`. -/
structure DayState where
  subs : List SubjData
  hoursLeft : ℚ
  clock : ℚ
  events : List Event
  covered : List String
deriving DecidableEq

/-- Which of the four passes a subject is visited in; determines the target
hours and the coverage bookkeeping. -/
inductive PassMode where
  | urgent
  | high
  | med
  | low
deriving DecidableEq

/-- The per-subject hour target of each pass: `min(2.0, hours_left)`
(line 174), `min(1.0, hours_left)` (line 212), or all of `hours_left`
(lines 257/266 and 289/298). -/
def passTarget : PassMode → ℚ → ℚ
  | .urgent, hl => min 2 hl
  | .high, hl => min 1 hl
  | .med, hl => hl
  | .low, hl => hl

/-- `needs_revision_today` (lines 177-178, 216-217, 251-252, 283-284):
today is `exam_date - revision_days_before` and revision is not yet done.
In the urgent pass the subject is known to have an exam date; the other
passes guard with `if subject["exam_date"]:` first — both are the
`some` branch here. -/
def needsRevisionToday (prefs : StudyPreferences) (cd : ℤ) (s : SubjData) : Bool :=
  match s.exam_date with
  | some e => decide (cd = e - prefs.revision_days_before) && !s.revision_completed
  | none => false

/-- The body of one pass iteration for the subject at index `i`.
Python's `break` on `hours_left < 0.5` is modelled as a per-subject
no-op: once the guard fails no later iteration changes the state, so
skipping the rest of the list is the same as breaking out of it. -/
def passStep (prefs : StudyPreferences) (mode : PassMode) (cd : ℤ)
    (st : DayState) (i : ℕ) : DayState :=
  if st.hoursLeft < 1/2 then st
  else
    match st.subs.get? i with
    | none => st
    | some s =>
      let target := passTarget mode st.hoursLeft
      if needsRevisionToday prefs cd s then
        let r := addRevisionSession s cd st.clock target prefs.session_duration prefs.break_duration
        -- the engine sets the flag unconditionally after the call
        -- (lines 187, 226, 261, 293)
        let s2 := { r.subj with revision_completed := true }
        let covered2 :=
          if mode = .urgent ∧ s.importance = .High then s.name :: st.covered else st.covered
        { subs := st.subs.set i s2, hoursLeft := st.hoursLeft - r.hours_used,
          clock := r.new_time, events := st.events ++ r.events, covered := covered2 }
      else
        let r := addRegularSession s cd st.clock target prefs.session_duration prefs.break_duration
        let covered2 :=
          if (mode = .urgent ∧ s.importance = .High) ∨ mode = .high
          then s.name :: st.covered else st.covered
        { subs := st.subs.set i r.subj, hoursLeft := st.hoursLeft - r.hours_used,
          clock := r.new_time, events := st.events ++ r.events, covered := covered2 }

/-- The urgent-pass membership test (lines 163-167). -/
def urgentPred (cd : ℤ) (s : SubjData) : Bool :=
  match s.exam_date with
  | some e => !s.subject_completed && decide (e - cd < 5) && decide (cd ≤ e)
  | none => false

/-- The high-importance-pass membership test (lines 201-205). -/
def highPred (covered : List String) (s : SubjData) : Bool :=
  s.importance = .High && !s.subject_completed && !(covered.contains s.name)

/-- The medium-pass membership test (lines 240-243). -/
def medPred (s : SubjData) : Bool :=
  s.importance = .Medium && !s.subject_completed

/-- The low-pass membership test (lines 272-275). -/
def lowPred (s : SubjData) : Bool :=
  s.importance = .Low && !s.subject_completed

/-- The indices of the subjects a pass visits, in input order.  The
Python comprehensions build lists of references before the loop runs;
membership is decided against the state at pass start, while the loop
body reads live state — exactly this. -/
def passIdxs (p : SubjData → Bool) (subs : List SubjData) : List ℕ :=
  (List.range subs.length).filter fun i =>
    match subs.get? i with
    | some s => p s
    | none => false

/-- One schedulable day of the loop body (lines 146-305): the four passes,
started from budget `dayBudget` and a 09:00 clock. -/
def processDaySt (prefs : StudyPreferences) (cd : ℤ) (subs : List SubjData) : DayState :=
  let st0 : DayState :=
    { subs := subs, hoursLeft := dayBudget prefs cd, clock := 9, events := [], covered := [] }
  let st1 := (passIdxs (urgentPred cd) st0.subs).foldl (passStep prefs .urgent cd) st0
  let st2 := (passIdxs (highPred st1.covered) st1.subs).foldl (passStep prefs .high cd) st1
  let st3 := (passIdxs medPred st2.subs).foldl (passStep prefs .med cd) st2
  (passIdxs lowPred st3.subs).foldl (passStep prefs .low cd) st3

/-- The updated subject records and the day's event list (`day_sessions`
plus the breaks inserted among them). -/
def processDay (prefs : StudyPreferences) (cd : ℤ) (subs : List SubjData) :
    List SubjData × List Event :=
  ((processDaySt prefs cd subs).subs, (processDaySt prefs cd subs).events)

/-- The end-of-day completion check for one subject (lines 311-333),
run with the already-advanced date `cdNext`.  Returns the updated record
and the unallocated-topic entries it contributes. -/
def endOfDaySubject (cdNext : ℤ) (s : SubjData) : SubjData × List UnallocEntry :=
  if s.subject_completed then (s, [])
  else
    let allDone := s.topics.all fun t => decide (t.remaining_hours ≤ 1/100) || t.completed
    let examPassed : Bool := match s.exam_date with
      | some e => decide (e < cdNext)
      | none => false
    if examPassed || (allDone && (s.revision_completed || !s.needs_revision)) then
      ({ s with subject_completed := true },
       (s.topics.filter fun t => decide (t.remaining_hours > 1/100) && !t.completed).map
         fun t => { subject := s.name, topic := t.name,
                    hours_remaining := round1 t.remaining_hours })
    else (s, [])

/-- The end-of-day sweep over all subjects (lines 310-333), collecting the
unallocated entries in subject order. -/
def endOfDay (cdNext : ℤ) (subs : List SubjData) : List SubjData × List UnallocEntry :=
  (subs.map (endOfDaySubject cdNext) |>.map Prod.fst,
   (subs.map (endOfDaySubject cdNext)).flatMap Prod.snd)

/-- A day of the plan together with its full event list (the emitted
`StudyDay` is its `date` with `sessionsOf events`). -/
structure DayOut where
  date : ℤ
  events : List Event
deriving DecidableEq

/-- The result of the schedule loop. -/
structure SchedResult where
  daysE : List DayOut
  unallocated : List UnallocEntry
  finalSubs : List SubjData
deriving DecidableEq

/-- The `while current_date <= end_date` loop (lines 139-334), driven by
the number `n` of dates left in the range.  Break days are skipped
entirely — including the completion check (lines 141-144); a day is
recorded only if it has sessions (line 304). -/
def schedGo (prefs : StudyPreferences) (cd : ℤ) (n : ℕ) (subs : List SubjData) : SchedResult :=
  match n with
  | 0 => { daysE := [], unallocated := [], finalSubs := subs }
  | n + 1 =>
    if prefs.break_days.contains cd then
      schedGo prefs (cd + 1) n subs
    else
      let pd := processDay prefs cd subs
      let eod := endOfDay (cd + 1) pd.1
      let rest := schedGo prefs (cd + 1) n eod.1
      { daysE := if sessionsOf pd.2 = [] then rest.daysE else ⟨cd, pd.2⟩ :: rest.daysE,
        unallocated := eod.2 ++ rest.unallocated,
        finalSubs := rest.finalSubs }

/-- The engine-internal topic record built from an input topic
(lines 115-122): fresh `remaining_hours`, `completed` always `False`. -/
def initTopic (t : Topic) : TopicData :=
  { name := t.name, hours_needed := t.estimated_hours, remaining_hours := t.estimated_hours,
    difficulty := t.difficulty, completed := false }

/-- The engine-internal subject record built from an input subject
(lines 124-133). -/
def initSubject (s : Subject) : SubjData :=
  { name := s.name, exam_date := s.exam_date, importance := s.importance,
    topics := s.topics.map initTopic, current_topic_index := 0,
    needs_revision := s.exam_date.isSome, revision_completed := false,
    subject_completed := false }

/-- The number of dates in the inclusive range walked by the loops; an
inverted range gives `0` iterations, as `while current <= end` does. -/
def rangeLen (startD endD : ℤ) : ℕ := (endD + 1 - startD).toNat

/-- `_generate_rule_based_schedule` (lines 94-335). -/
def generateRuleBasedSchedule (subjects : List Subject) (startD endD : ℤ)
    (prefs : StudyPreferences) : SchedResult :=
  schedGo prefs startD (rangeLen startD endD) (subjects.map initSubject)

/-! ## `generate_study_plan` (lines 11-92) -/

/-- Per-subject demand (lines 30-39): the topic hour sum, plus half of it
again when the subject has an exam date. -/
def subjectHoursNeeded (s : Subject) : ℚ :=
  let subject_hours := (s.topics.map Topic.estimated_hours).sum
  if s.exam_date.isSome then subject_hours + subject_hours * (1/2) else subject_hours

/-- `total_study_hours_needed` (lines 29-39). -/
def totalHoursNeeded (subjects : List Subject) : ℚ :=
  (subjects.map subjectHoursNeeded).sum

/-- The `while` loop accumulating `available_study_hours`
(lines 42-60). -/
def availGo (prefs : StudyPreferences) (cd : ℤ) : ℕ → ℚ
  | 0 => 0
  | n + 1 =>
    (if prefs.break_days.contains cd then 0 else dayBudget prefs cd) +
      availGo prefs (cd + 1) n

/-- `available_study_hours` (lines 41-60). -/
def availableHours (prefs : StudyPreferences) (startD endD : ℤ) : ℚ :=
  availGo prefs startD (rangeLen startD endD)

/-- The per-subject hour distribution (lines 77-82), as an insertion-order
association list, folded over the emitted sessions in plan order. -/
def distribAdd (m : List (String × ℚ)) (s : Session) : List (String × ℚ) :=
  if (m.lookup s.subject).isSome then
    m.map fun p => if p.1 = s.subject then (p.1, p.2 + s.duration_hours) else p
  else m ++ [(s.subject, s.duration_hours)]

/-- The engine's response (`StudyPlanResponse`), with the distribution
dict embedded as an insertion-ordered association list. -/
structure StudyPlanResponse where
  days : List StudyDay
  total_study_hours : ℚ
  subjects_distribution : List (String × ℚ)
  insufficient_time : Bool
  total_hours_needed : ℚ
  available_hours : ℚ
  unallocated_topics : List UnallocEntry
deriving DecidableEq

/-- The recorded days of a request's plan, with their event lists. -/
def planDaysE (req : StudyPlanRequest) : List DayOut :=
  (generateRuleBasedSchedule req.subjects req.start_date req.end_date req.preferences).daysE

/-- `generate_study_plan` (lines 11-92). -/
def generateStudyPlan (req : StudyPlanRequest) : StudyPlanResponse :=
  let needed := totalHoursNeeded req.subjects
  let avail := availableHours req.preferences req.start_date req.end_date
  let sched := generateRuleBasedSchedule req.subjects req.start_date req.end_date req.preferences
  let days := sched.daysE.map fun d => StudyDay.mk d.date (sessionsOf d.events)
  let allSessions := days.flatMap StudyDay.sessions
  { days := days,
    total_study_hours := durSum allSessions,
    subjects_distribution := allSessions.foldl distribAdd [],
    insufficient_time := decide (avail < needed),
    total_hours_needed := needed,
    available_hours := avail,
    unallocated_topics := sched.unallocated }

/-! ## Concrete inputs used by witnesses and counterexamples -/

/-- Default-style preferences: weekday 3 h, weekend 5 h, 15-minute breaks,
1.5 h sessions, revision two days before the exam, no break days. -/
def prefsW : StudyPreferences :=
  { weekday_hours := 3, weekend_hours := 5, break_duration := 1/4,
    session_duration := 3/2, revision_days_before := 2, break_days := [] }

/-- A two-topic subject state for exercising the revision allocator. -/
def subjW : SubjData :=
  initSubject
    { name := "W", topics := [⟨"t1", 1, 3, false⟩, ⟨"t2", 1, 3, false⟩],
      exam_date := some 2, importance := .Medium, difficulty := 3 }

/-- A one-subject, one-day request (day 0 is a Monday). -/
def reqSmall : StudyPlanRequest :=
  { subjects := [{ name := "S", topics := [⟨"T", 1, 3, false⟩], exam_date := none,
                   importance := .Medium, difficulty := 3 }],
    start_date := 0, end_date := 0, preferences := prefsW }

/-- The first recorded day of `reqSmall`'s plan. -/
def dayW : DayOut := (planDaysE reqSmall).getD 0 ⟨0, []⟩

/-- A subject whose single one-hour topic is finished on day 0, while its
exam on day 10 still requires revision on day 8: on day 1 the regular
allocator finds the cursor past the last topic and completes the subject
mid-day. -/
def subjMid : Subject :=
  { name := "M", topics := [⟨"T", 1, 3, false⟩], exam_date := some 10,
    importance := .Medium, difficulty := 3 }

/-- The engine state for `subjMid` after day 0 (its topic done, revision
pending). -/
def midAfterDay0 : List SubjData :=
  (endOfDay 1 (processDay prefsW 0 [initSubject subjMid]).1).1

/-- A five-topic subject whose revision day is day 0. -/
def subjRev : Subject :=
  { name := "R",
    topics := [⟨"t1", 1, 3, false⟩, ⟨"t2", 1, 3, false⟩, ⟨"t3", 1, 3, false⟩,
               ⟨"t4", 1, 3, false⟩, ⟨"t5", 1, 3, false⟩],
    exam_date := some 2, importance := .Medium, difficulty := 3 }

/-- Preferences giving only half an hour on every day: the revision day's
budget runs out after two of the required three topic revisions. -/
def prefsTight : StudyPreferences :=
  { weekday_hours := 1/2, weekend_hours := 1/2, break_duration := 1/4,
    session_duration := 3/2, revision_days_before := 2, break_days := [] }

/-- Preferences whose `session_duration` is zero. -/
def prefsZeroSess : StudyPreferences :=
  { weekday_hours := 3, weekend_hours := 5, break_duration := 1/4,
    session_duration := 0, revision_days_before := 2, break_days := [] }

/-- A fallback session value for safe list indexing in statements. -/
def sessDefault : Session :=
  { subject := "", topic := "", date := 0, start_time := 0, end_time := 0,
    duration_hours := 0, session_type := "" }

/-- A one-day request with `session_duration = 0`. -/
def reqZeroSess : StudyPlanRequest :=
  { subjects := [{ name := "Z", topics := [⟨"T", 1, 3, false⟩], exam_date := none,
                   importance := .Medium, difficulty := 3 }],
    start_date := 0, end_date := 0, preferences := prefsZeroSess }

/-- An inverted-range request. -/
def reqInverted : StudyPlanRequest :=
  { subjects := [{ name := "S", topics := [⟨"T", 1, 3, false⟩], exam_date := none,
                   importance := .Medium, difficulty := 3 }],
    start_date := 5, end_date := 3, preferences := prefsW }

/-- Preferences with negative daily budgets. -/
def prefsNeg : StudyPreferences :=
  { weekday_hours := -1, weekend_hours := -2, break_duration := 1/4,
    session_duration := 3/2, revision_days_before := 2, break_days := [] }

/-- A three-day request with negative daily budgets everywhere. -/
def reqNeg : StudyPlanRequest :=
  { subjects := [{ name := "S", topics := [⟨"T", 1, 3, false⟩], exam_date := none,
                   importance := .Medium, difficulty := 3 }],
    start_date := 0, end_date := 2, preferences := prefsNeg }

/-- A subject state whose every topic is completed, so the revision
allocator's `topics_to_revise` count is zero. -/
def subjDone : SubjData :=
  { name := "D", exam_date := some 2, importance := .Medium,
    topics := [{ name := "T", hours_needed := 1, remaining_hours := 0,
                 difficulty := 3, completed := true }],
    current_topic_index := 1, needs_revision := true,
    revision_completed := false, subject_completed := false }

/-- A three-day request around `subjRev`'s revision day (day 0), with
roomy default-style budgets. -/
def reqC4 : StudyPlanRequest :=
  { subjects := [subjRev], start_date := 0, end_date := 2, preferences := prefsW }

/-- The inclusive date range `start_date .. end_date` as an explicit list
(spec wording: the available hours are summed over the non-break days of
the inclusive range); used to state C9 against the loop in the code. -/
def rangeDates (startD endD : ℤ) : List ℤ :=
  (List.range (rangeLen startD endD)).map fun (k : ℕ) => startD + (k : ℤ)

/-! ## Derived definitions used in lemma and claim statements -/

/-- The session `_add_regular_session` builds at lines 371-379 for a
topic named `tname`, starting at `ct` and lasting `dur` hours. -/
def regSessionAt (sname : String) (cd : ℤ) (ct dur : ℚ) (tname : String) : Session :=
  { subject := sname, topic := tname, date := cd, start_time := ct,
    end_time := wrap24 (ct + dur), duration_hours := dur, session_type := "regular" }

/-- The time-per-topic slice used by a revision call: `min(0.5,
available_hours / topics_to_revise)` (line 429). -/
def revTimePerTopic (s : SubjData) (avail : ℚ) : ℚ :=
  min (1/2)
    (avail / ((min ((s.topics.filter fun t => !t.completed).length) 5 : ℕ) : ℚ))

/-- The running day invariant: the hours charged so far are exactly the
event total, the sessions-plus-inner-breaks total stays within the
nonnegative part of the budget, and events exist only if the budget was at
least the half-hour floor. -/
def C3Inv (B : ℚ) (st : DayState) : Prop :=
  fullSum st.events = B - st.hoursLeft
  ∧ interSum st.events ≤ max B 0
  ∧ (st.events ≠ [] → 1/2 ≤ B)

/-- The per-session validity property of C5. -/
def SessOK (ms : ℚ) (sess : Session) : Prop :=
  0 < sess.duration_hours ∧ sess.duration_hours ≤ ms

/-- Is `sess` a regular session for subject `n` on topic `tn`? -/
def regFor (n tn : String) (sess : Session) : Bool :=
  sess.session_type == "regular" && sess.subject == n && sess.topic == tn

/-- Is `sess` a revision session for subject `n`? -/
def revFor (n : String) (sess : Session) : Bool :=
  sess.session_type == "revision" && sess.subject == n

/-- Total hours of the regular sessions for `(n, tn)` in `S`. -/
def sumRegFor (n tn : String) (S : List Session) : ℚ :=
  durSum (S.filter (regFor n tn))

/-- The revision sessions for subject `n` in `S`. -/
def revSessionsFor (n : String) (S : List Session) : List Session :=
  S.filter (revFor n)

/-- All sessions of a recorded plan, in plan order. -/
def allSessions (days : List DayOut) : List Session :=
  days.flatMap fun d => sessionsOf d.events

/-- The running engine invariant relating the mutable subject records and
the sessions emitted so far to the immutable input subjects: identities
and exam dates never change; topic names and estimated hours never
change; every topic's remaining hours are nonnegative and complement
exactly the regular-session hours already charged to it; a subject whose
`revision_completed` flag is still false has no revision session yet;
no subject ever accumulates more than 5 revision sessions; and every
revision session falls on the subject's exam date minus the configured
offset. -/
def RunInv (orig : List Subject) (rdb : ℤ) (subs : List SubjData) (S : List Session) : Prop :=
  subs.length = orig.length
  ∧ ∀ i (hi : i < orig.length) (hs : i < subs.length),
      (subs.get ⟨i, hs⟩).name = (orig.get ⟨i, hi⟩).name
      ∧ (subs.get ⟨i, hs⟩).exam_date = (orig.get ⟨i, hi⟩).exam_date
      ∧ (subs.get ⟨i, hs⟩).topics.length = (orig.get ⟨i, hi⟩).topics.length
      ∧ (∀ j (hj : j < (subs.get ⟨i, hs⟩).topics.length)
            (hj2 : j < (orig.get ⟨i, hi⟩).topics.length),
          ((subs.get ⟨i, hs⟩).topics.get ⟨j, hj⟩).name
              = ((orig.get ⟨i, hi⟩).topics.get ⟨j, hj2⟩).name
          ∧ 0 ≤ ((subs.get ⟨i, hs⟩).topics.get ⟨j, hj⟩).remaining_hours
          ∧ sumRegFor (orig.get ⟨i, hi⟩).name
                ((orig.get ⟨i, hi⟩).topics.get ⟨j, hj2⟩).name S
              + ((subs.get ⟨i, hs⟩).topics.get ⟨j, hj⟩).remaining_hours
              = ((orig.get ⟨i, hi⟩).topics.get ⟨j, hj2⟩).estimated_hours)
      ∧ ((subs.get ⟨i, hs⟩).revision_completed = false
          → revSessionsFor (orig.get ⟨i, hi⟩).name S = [])
      ∧ (revSessionsFor (orig.get ⟨i, hi⟩).name S).length ≤ 5
      ∧ (∀ sess ∈ S, revFor (orig.get ⟨i, hi⟩).name sess = true →
          ∃ e, (orig.get ⟨i, hi⟩).exam_date = some e ∧ sess.date = e - rdb)

/-- The run invariant read off a mid-day state: it governs the live
subject records and the sessions emitted before the day plus those of the
day so far. -/
def RunP (orig : List Subject) (rdb : ℤ) (S0 : List Session) (st : DayState) : Prop :=
  RunInv orig rdb st.subs (S0 ++ sessionsOf st.events)

/-! ## Event-list accounting lemmas -/

theorem sessionsOf_nil : sessionsOf [] = [] := rfl

theorem sessionsOf_append (a b : List Event) :
    sessionsOf (a ++ b) = sessionsOf a ++ sessionsOf b :=
  List.filterMap_append a b _

theorem fullSum_append (a b : List Event) :
    fullSum (a ++ b) = fullSum a + fullSum b := by
  induction a with
  | nil => simp [fullSum]
  | cons e r ih => cases e <;> simp [fullSum, ih] <;> ring

theorem interSum_append_of_session (a b : List Event)
    (hb : b.any Event.isSession = true) :
    interSum (a ++ b) = fullSum a + interSum b := by
  induction a with
  | nil => simp [fullSum]
  | cons e r ih =>
    cases e with
    | session s => simp [interSum, fullSum, ih]; ring
    | brk d =>
      have : (r ++ b).any Event.isSession = true := by
        rw [List.any_append, hb, Bool.or_true]
      simp [interSum, fullSum, this, ih]; ring

theorem interSum_eq_zero_of_no_session (b : List Event)
    (hb : b.any Event.isSession = false) : interSum b = 0 := by
  induction b with
  | nil => rfl
  | cons e r ih =>
    cases e with
    | session s => simp [Event.isSession] at hb
    | brk d =>
      simp only [List.any_cons, Bool.or_eq_false_iff] at hb
      simp [interSum, hb.2, ih hb.2]

theorem interSum_append_of_no_session (a b : List Event)
    (hb : b.any Event.isSession = false) :
    interSum (a ++ b) = interSum a := by
  induction a with
  | nil => simpa using interSum_eq_zero_of_no_session b hb
  | cons e r ih =>
    cases e with
    | session s => simp [interSum, ih]
    | brk d =>
      have h2 : (r ++ b).any Event.isSession = r.any Event.isSession := by
        rw [List.any_append, hb, Bool.or_false]
      simp [interSum, h2, ih]

theorem sessionsOf_eq_nil_of_no_session (a : List Event)
    (h : a.any Event.isSession = false) : sessionsOf a = [] := by
  induction a with
  | nil => rfl
  | cons e r ih =>
    cases e with
    | session s => simp [Event.isSession] at h
    | brk d =>
      simp only [List.any_cons, Bool.or_eq_false_iff] at h
      simpa [sessionsOf] using ih h.2

theorem durSum_append (a b : List Session) :
    durSum (a ++ b) = durSum a + durSum b := by
  simp [durSum]

/-! ## Lemmas about `addRevisionSession` -/

/-- Every session emitted by the revision loop has type `"revision"`, the
subject's name, the current date, a duration of at least `0.1` (the skip
threshold) and at most each of `max_session_duration` and
`time_per_topic`. -/
theorem addRevisionGo_sessions (sname : String) (cd : ℤ) (topics : List TopicData)
    (tpt ms bk : ℚ) (quota : ℕ) (fuel ti revised : ℕ) (rem used ct : ℚ) :
    ∀ sess ∈ sessionsOf
      (addRevisionGo sname cd topics tpt ms bk quota fuel ti revised rem used ct).events,
      sess.session_type = "revision" ∧ sess.subject = sname ∧ sess.date = cd ∧
        1/10 ≤ sess.duration_hours ∧ sess.duration_hours ≤ ms ∧
        sess.duration_hours ≤ tpt := by
  induction fuel generalizing ti revised rem used ct with
  | zero => intro sess hs; simp [addRevisionGo, sessionsOf] at hs
  | succ fuel ih =>
    intro sess hs
    simp only [addRevisionGo] at hs
    split at hs
    · next h =>
      split at hs
      · exact ih _ _ _ _ _ sess hs
      · next hd =>
        split at hs
        · simp only [sessionsOf, List.filterMap_cons, List.mem_cons] at hs
          rcases hs with rfl | hs
          · refine ⟨rfl, rfl, rfl, le_of_not_lt hd, ?_, ?_⟩
            · exact min_le_left _ _
            · exact le_trans (min_le_right _ _) (min_le_right _ _)
          · exact ih _ _ _ _ _ sess hs
        · simp only [sessionsOf, List.filterMap_cons, List.mem_cons] at hs
          rcases hs with rfl | hs
          · refine ⟨rfl, rfl, rfl, le_of_not_lt hd, ?_, ?_⟩
            · exact min_le_left _ _
            · exact le_trans (min_le_right _ _) (min_le_right _ _)
          · exact ih _ _ _ _ _ sess hs
    · simp [sessionsOf] at hs

/-- The `hours_used` reported by the revision loop is exactly the sum of
the durations of the sessions and breaks it emitted. -/
theorem addRevisionGo_hours (sname : String) (cd : ℤ) (topics : List TopicData)
    (tpt ms bk : ℚ) (quota : ℕ) (fuel ti revised : ℕ) (rem used ct : ℚ) :
    (addRevisionGo sname cd topics tpt ms bk quota fuel ti revised rem used ct).hours_used
      = used
        + fullSum (addRevisionGo sname cd topics tpt ms bk quota fuel ti revised rem used ct).events := by
  induction fuel generalizing ti revised rem used ct with
  | zero => simp [addRevisionGo, fullSum]
  | succ fuel ih =>
    simp only [addRevisionGo]
    split
    · split
      · exact ih _ _ _ _ _
      · split
        · simp only [fullSum, ih]; ring
        · simp only [fullSum, ih]; ring
    · simp [fullSum]

/-- The revision loop's final `topics_revised` counter counts exactly the
sessions it emitted, and never exceeds the quota. -/
theorem addRevisionGo_count (sname : String) (cd : ℤ) (topics : List TopicData)
    (tpt ms bk : ℚ) (quota : ℕ) (fuel ti revised : ℕ) (rem used ct : ℚ) :
    (sessionsOf
        (addRevisionGo sname cd topics tpt ms bk quota fuel ti revised rem used ct).events).length
        + revised
      = (addRevisionGo sname cd topics tpt ms bk quota fuel ti revised rem used ct).topics_revised
    ∧ (revised ≤ quota →
        (addRevisionGo sname cd topics tpt ms bk quota fuel ti revised rem used ct).topics_revised
          ≤ quota) := by
  induction fuel generalizing ti revised rem used ct with
  | zero => exact ⟨by simp [addRevisionGo, sessionsOf], fun h => by simpa [addRevisionGo] using h⟩
  | succ fuel ih =>
    simp only [addRevisionGo]
    split
    · next h =>
      split
      · exact ih _ _ _ _ _
      · split
        · refine ⟨?_,
            fun _ => (ih (ti + 1) (revised + 1) (rem - min ms (min rem tpt) - bk)
              (used + min ms (min rem tpt) + bk) (wrap24 (ct + min ms (min rem tpt) + bk))).2 h.2.1⟩
          have := (ih (ti + 1) (revised + 1) (rem - min ms (min rem tpt) - bk)
            (used + min ms (min rem tpt) + bk) (wrap24 (ct + min ms (min rem tpt) + bk))).1
          simp only [sessionsOf, List.filterMap_cons, List.length_cons] at this ⊢
          omega
        · refine ⟨?_,
            fun _ => (ih (ti + 1) (revised + 1) (rem - min ms (min rem tpt))
              (used + min ms (min rem tpt)) (wrap24 (ct + min ms (min rem tpt)))).2 h.2.1⟩
          have := (ih (ti + 1) (revised + 1) (rem - min ms (min rem tpt))
            (used + min ms (min rem tpt)) (wrap24 (ct + min ms (min rem tpt)))).1
          simp only [sessionsOf, List.filterMap_cons, List.length_cons] at this ⊢
          omega
    · exact ⟨by simp [sessionsOf], fun h => h⟩

/-- Budget safety of the revision loop: the session durations plus the
breaks followed by a later session total at most the remaining budget it
was given; moreover it emits nothing at all when the remaining budget is
at or below the `0.1` floor, and any event list it emits starts with a
session. -/
theorem addRevisionGo_inter (sname : String) (cd : ℤ) (topics : List TopicData)
    (tpt ms bk : ℚ) (quota : ℕ) (fuel ti revised : ℕ) (rem used ct : ℚ) :
    interSum (addRevisionGo sname cd topics tpt ms bk quota fuel ti revised rem used ct).events
        ≤ max rem 0
    ∧ ((addRevisionGo sname cd topics tpt ms bk quota fuel ti revised rem used ct).events ≠ []
        → 1/10 < rem)
    ∧ ((addRevisionGo sname cd topics tpt ms bk quota fuel ti revised rem
          used ct).events.any Event.isSession = false
        → (addRevisionGo sname cd topics tpt ms bk quota fuel ti revised rem used ct).events
            = []) := by
  induction fuel generalizing ti revised rem used ct with
  | zero =>
    refine ⟨?_, fun h => absurd rfl h, fun _ => rfl⟩
    simpa [addRevisionGo, interSum] using le_max_right rem 0
  | succ fuel ih =>
    simp only [addRevisionGo]
    split
    · next h =>
      have hrem : (0 : ℚ) < rem := lt_trans (by norm_num) h.2.2
      split
      · exact ih _ _ _ _ _
      · next hd =>
        have hdur_rem : min ms (min rem tpt) ≤ rem :=
          le_trans (min_le_right _ _) (min_le_left _ _)
        split
        · next hb =>
          obtain ⟨ih1, ih2, ih3⟩ := ih (ti + 1) (revised + 1)
            (rem - min ms (min rem tpt) - bk) (used + min ms (min rem tpt) + bk)
            (wrap24 (ct + min ms (min rem tpt) + bk))
          refine ⟨?_, fun _ => h.2.2, by simp [Event.isSession]⟩
          by_cases hany :
            (addRevisionGo sname cd topics tpt ms bk quota fuel (ti + 1) (revised + 1)
              (rem - min ms (min rem tpt) - bk) (used + min ms (min rem tpt) + bk)
              (wrap24 (ct + min ms (min rem tpt) + bk))).events.any Event.isSession = true
          · have hne : (addRevisionGo sname cd topics tpt ms bk quota fuel (ti + 1) (revised + 1)
                (rem - min ms (min rem tpt) - bk) (used + min ms (min rem tpt) + bk)
                (wrap24 (ct + min ms (min rem tpt) + bk))).events ≠ [] := by
              intro he; rw [he] at hany; simp at hany
            have h10 := ih2 hne
            have hmax : max (rem - min ms (min rem tpt) - bk) 0
                = rem - min ms (min rem tpt) - bk := max_eq_left (le_of_lt (lt_trans (by norm_num) h10))
            rw [hmax] at ih1
            simp only [interSum, hany, if_pos]
            calc min ms (min rem tpt) + (bk + interSum _)
                ≤ min ms (min rem tpt) + (bk + (rem - min ms (min rem tpt) - bk)) := by
                  exact add_le_add_left (add_le_add_left ih1 bk) _
              _ = rem := by ring
              _ ≤ max rem 0 := le_max_left _ _
          · have hz := ih3 (Bool.eq_false_iff.mpr fun hc => hany hc)
            rw [hz]
            simp only [interSum, List.any_nil, if_neg, Bool.false_eq_true, not_false_iff]
            calc min ms (min rem tpt) + (0 + 0) = min ms (min rem tpt) := by ring
              _ ≤ rem := hdur_rem
              _ ≤ max rem 0 := le_max_left _ _
        · next hb =>
          obtain ⟨ih1, ih2, ih3⟩ := ih (ti + 1) (revised + 1)
            (rem - min ms (min rem tpt)) (used + min ms (min rem tpt)) (wrap24 (ct + min ms (min rem tpt)))
          have hz : (addRevisionGo sname cd topics tpt ms bk quota fuel (ti + 1) (revised + 1)
              (rem - min ms (min rem tpt)) (used + min ms (min rem tpt))
              (wrap24 (ct + min ms (min rem tpt)))).events = [] := by
            by_contra hc
            exact hb (ih2 hc)
          refine ⟨?_, fun _ => h.2.2, by simp [Event.isSession]⟩
          rw [hz]
          simp only [interSum]
          calc min ms (min rem tpt) + 0 = min ms (min rem tpt) := by ring
            _ ≤ rem := hdur_rem
            _ ≤ max rem 0 := le_max_left _ _
    · refine ⟨?_, fun h => absurd rfl h, fun _ => rfl⟩
      simpa [interSum] using le_max_right rem 0

/-- The topic labels of the sessions emitted by the revision loop are, in
order, a sublist of `"Revision: " ++ name` over the subject's topics from
`topic_index` on: topics are visited in list order, regardless of their
completion state. -/
theorem addRevisionGo_labels (sname : String) (cd : ℤ) (topics : List TopicData)
    (tpt ms bk : ℚ) (quota : ℕ) (fuel ti revised : ℕ) (rem used ct : ℚ) :
    ((sessionsOf
        (addRevisionGo sname cd topics tpt ms bk quota fuel ti revised rem used ct).events).map
          Session.topic).Sublist
      (((topics.drop ti).map fun t => "Revision: " ++ t.name)) := by
  induction fuel generalizing ti revised rem used ct with
  | zero => simp [addRevisionGo, sessionsOf]
  | succ fuel ih =>
    simp only [addRevisionGo]
    split
    · next h =>
      have hdrop : topics.drop ti = topics.get ⟨ti, h.1⟩ :: topics.drop (ti + 1) := by
        simpa using List.drop_eq_getElem_cons h.1
      split
      · refine (ih _ _ _ _ _).trans ?_
        rw [hdrop, List.map_cons]
        exact List.sublist_cons_of_sublist _ (List.Sublist.refl _)
      · split
        · rw [hdrop, List.map_cons]
          simp only [sessionsOf, List.filterMap_cons, List.map_cons]
          exact List.Sublist.cons₂ _ (ih _ _ _ _ _)
        · rw [hdrop, List.map_cons]
          simp only [sessionsOf, List.filterMap_cons, List.map_cons]
          exact List.Sublist.cons₂ _ (ih _ _ _ _ _)
    · simp [sessionsOf]

/-- Every break the revision loop inserts has the configured
`break_duration`. -/
theorem addRevisionGo_breaks (sname : String) (cd : ℤ) (topics : List TopicData)
    (tpt ms bk : ℚ) (quota : ℕ) (fuel ti revised : ℕ) (rem used ct : ℚ) :
    ∀ b, Event.brk b
        ∈ (addRevisionGo sname cd topics tpt ms bk quota fuel ti revised rem used ct).events
      → b = bk := by
  induction fuel generalizing ti revised rem used ct with
  | zero => intro b hb; simp [addRevisionGo] at hb
  | succ fuel ih =>
    intro b hb
    simp only [addRevisionGo] at hb
    split at hb
    · split at hb
      · exact ih _ _ _ _ _ b hb
      · split at hb
        · simp only [List.mem_cons] at hb
          rcases hb with hb | hb | hb
          · cases hb
          · cases hb; rfl
          · exact ih _ _ _ _ _ b hb
        · simp only [List.mem_cons] at hb
          rcases hb with hb | hb
          · cases hb
          · exact ih _ _ _ _ _ b hb
    · simp at hb

/-- If every break in an event list is nonnegative, the session durations
alone total at most the sessions-plus-inner-breaks total. -/
theorem durSum_le_interSum (evs : List Event)
    (h : ∀ b, Event.brk b ∈ evs → 0 ≤ b) :
    durSum (sessionsOf evs) ≤ interSum evs := by
  induction evs with
  | nil => simp [durSum, sessionsOf, interSum]
  | cons e r ih =>
    have hr : ∀ b, Event.brk b ∈ r → 0 ≤ b := fun b hb => h b (List.mem_cons_of_mem e hb)
    cases e with
    | session s =>
      simp only [sessionsOf, List.filterMap_cons, interSum, durSum, List.map_cons, List.sum_cons]
      exact add_le_add_left (ih hr) _
    | brk b =>
      have hb : 0 ≤ b := h b (List.mem_cons_self _ _)
      simp only [sessionsOf, List.filterMap_cons, interSum]
      refine le_add_of_nonneg_of_le ?_ (ih hr)
      split
      · exact hb
      · exact le_refl 0

/-! ## Lemmas about `addRegularSession` -/

/-- Characterization of one call of the regular-session loop: it reports
`hours_used` equal to the total of the events it emits, and either emits
nothing and leaves the topic list unchanged, or picks the first
not-yet-completed topic at an index `k ≥ idx`, emits exactly one session
of duration `min(max_session_duration, available_hours, remaining_hours)`
for it (with or without a trailing break), and decrements that one topic's
`remaining_hours` by the session duration. -/
theorem addRegularGo_spec (sname : String) (cd : ℤ) (topics : List TopicData)
    (ct avail ms bk : ℚ) (fuel idx : ℕ) :
    (addRegularGo sname cd topics ct avail ms bk fuel idx).hours_used
        = fullSum (addRegularGo sname cd topics ct avail ms bk fuel idx).events
    ∧ (((addRegularGo sname cd topics ct avail ms bk fuel idx).events = []
          ∧ (addRegularGo sname cd topics ct avail ms bk fuel idx).topics = topics)
        ∨ ∃ k, ∃ hk : k < topics.length, idx ≤ k
            ∧ 1/100 < (topics.get ⟨k, hk⟩).remaining_hours
            ∧ (topics.get ⟨k, hk⟩).completed = false
            ∧ ∃ t2 : TopicData,
                (addRegularGo sname cd topics ct avail ms bk fuel idx).topics
                    = topics.set k t2
                ∧ t2.name = (topics.get ⟨k, hk⟩).name
                ∧ t2.hours_needed = (topics.get ⟨k, hk⟩).hours_needed
                ∧ t2.remaining_hours = (topics.get ⟨k, hk⟩).remaining_hours
                    - min ms (min avail (topics.get ⟨k, hk⟩).remaining_hours)
                ∧ (addRegularGo sname cd topics ct avail ms bk fuel idx).ran_out = false
                ∧ ((addRegularGo sname cd topics ct avail ms bk fuel idx).events
                      = [.session (regSessionAt sname cd ct
                          (min ms (min avail (topics.get ⟨k, hk⟩).remaining_hours))
                          (topics.get ⟨k, hk⟩).name), .brk bk]
                    ∨ (addRegularGo sname cd topics ct avail ms bk fuel idx).events
                      = [.session (regSessionAt sname cd ct
                          (min ms (min avail (topics.get ⟨k, hk⟩).remaining_hours))
                          (topics.get ⟨k, hk⟩).name)])) := by
  induction fuel generalizing idx with
  | zero => exact ⟨by simp [addRegularGo, fullSum], Or.inl ⟨rfl, rfl⟩⟩
  | succ fuel ih =>
    simp only [addRegularGo]
    split
    · next h =>
      split
      · next hskip =>
        obtain ⟨ih1, ih2⟩ := ih (idx + 1)
        refine ⟨ih1, ?_⟩
        rcases ih2 with ⟨he, ht⟩ | ⟨k, hk, hle, hrem, hcomp, t2, h2⟩
        · exact Or.inl ⟨he, ht⟩
        · exact Or.inr ⟨k, hk, le_trans (Nat.le_succ idx) hle, hrem, hcomp, t2, h2⟩
      · next hwork =>
        rw [not_or] at hwork
        split
        · refine ⟨by simp [fullSum, regSessionAt], Or.inr ⟨idx, h, le_refl idx,
            lt_of_not_le hwork.1, Bool.eq_false_iff.mpr hwork.2, ?_⟩⟩
          refine ⟨_, rfl, ?_, ?_, ?_, rfl, Or.inl rfl⟩ <;> split <;> rfl
        · refine ⟨by simp [fullSum, regSessionAt], Or.inr ⟨idx, h, le_refl idx,
            lt_of_not_le hwork.1, Bool.eq_false_iff.mpr hwork.2, ?_⟩⟩
          refine ⟨_, rfl, ?_, ?_, ?_, rfl, Or.inr rfl⟩ <;> split <;> rfl
    · exact ⟨by simp [fullSum], Or.inl ⟨rfl, rfl⟩⟩

/-- With enough fuel for the remaining topics (the wrapper supplies
`topics.length`), the regular loop falls through to its
subject-completed exit exactly when it emits no event. -/
theorem addRegularGo_ran_out (sname : String) (cd : ℤ) (topics : List TopicData)
    (ct avail ms bk : ℚ) (fuel idx : ℕ) (hfuel : topics.length ≤ fuel + idx) :
    ((addRegularGo sname cd topics ct avail ms bk fuel idx).ran_out = true
      ↔ (addRegularGo sname cd topics ct avail ms bk fuel idx).events = []) := by
  induction fuel generalizing idx with
  | zero =>
    simp only [addRegularGo]
    simp
    omega
  | succ fuel ih =>
    simp only [addRegularGo]
    split
    · split
      · exact ih (idx + 1) (by omega)
      · split <;> simp
    · simp

/-- The subject record returned by `addRegularSession` keeps the subject's
identity, exam date, importance, and revision bookkeeping unchanged: only
`topics`, `current_topic_index` and `subject_completed` can move. -/
theorem addRegularSession_frame (s : SubjData) (cd : ℤ) (ct avail ms bk : ℚ) :
    (addRegularSession s cd ct avail ms bk).subj.name = s.name
    ∧ (addRegularSession s cd ct avail ms bk).subj.exam_date = s.exam_date
    ∧ (addRegularSession s cd ct avail ms bk).subj.importance = s.importance
    ∧ (addRegularSession s cd ct avail ms bk).subj.needs_revision = s.needs_revision
    ∧ (addRegularSession s cd ct avail ms bk).subj.revision_completed
        = s.revision_completed := by
  simp only [addRegularSession]
  split
  · exact ⟨rfl, rfl, rfl, rfl, rfl⟩
  · exact ⟨rfl, rfl, rfl, rfl, rfl⟩

/-- `_add_regular_session` reports as `hours_used` exactly the sum of the
durations of the events it emitted. -/
theorem addRegularSession_hours (s : SubjData) (cd : ℤ) (ct avail ms bk : ℚ) :
    (addRegularSession s cd ct avail ms bk).hours_used
      = fullSum (addRegularSession s cd ct avail ms bk).events := by
  simp only [addRegularSession]
  split
  · simp [fullSum]
  · exact (addRegularGo_spec s.name cd s.topics ct avail ms bk s.topics.length
      s.current_topic_index).1

/-- Characterization of `_add_regular_session` at the subject level:
either it emits nothing and leaves the topic list unchanged, or it emits
exactly one session for the first unfinished topic (at some index `k`),
of duration `min(max_session_duration, available_hours, remaining)`, with
or without a trailing break, and decrements exactly that topic's
remaining hours. -/
theorem addRegularSession_spec (s : SubjData) (cd : ℤ) (ct avail ms bk : ℚ) :
    ((addRegularSession s cd ct avail ms bk).events = []
        ∧ (addRegularSession s cd ct avail ms bk).subj.topics = s.topics)
    ∨ ∃ k, ∃ hk : k < s.topics.length,
        1/100 < (s.topics.get ⟨k, hk⟩).remaining_hours
        ∧ (s.topics.get ⟨k, hk⟩).completed = false
        ∧ ∃ t2 : TopicData,
            (addRegularSession s cd ct avail ms bk).subj.topics = s.topics.set k t2
            ∧ t2.name = (s.topics.get ⟨k, hk⟩).name
            ∧ t2.hours_needed = (s.topics.get ⟨k, hk⟩).hours_needed
            ∧ t2.remaining_hours = (s.topics.get ⟨k, hk⟩).remaining_hours
                - min ms (min avail (s.topics.get ⟨k, hk⟩).remaining_hours)
            ∧ ((addRegularSession s cd ct avail ms bk).events
                  = [.session (regSessionAt s.name cd ct
                      (min ms (min avail (s.topics.get ⟨k, hk⟩).remaining_hours))
                      (s.topics.get ⟨k, hk⟩).name), .brk bk]
                ∨ (addRegularSession s cd ct avail ms bk).events
                  = [.session (regSessionAt s.name cd ct
                      (min ms (min avail (s.topics.get ⟨k, hk⟩).remaining_hours))
                      (s.topics.get ⟨k, hk⟩).name)]) := by
  simp only [addRegularSession]
  split
  · exact Or.inl ⟨rfl, rfl⟩
  · obtain ⟨-, h2⟩ := addRegularGo_spec s.name cd s.topics ct avail ms bk s.topics.length
      s.current_topic_index
    rcases h2 with ⟨he, ht⟩ | ⟨k, hk, -, hrem, hcomp, t2, ht, hn, hh, hr, -, hev⟩
    · exact Or.inl ⟨he, ht⟩
    · exact Or.inr ⟨k, hk, hrem, hcomp, t2, ht, hn, hh, hr, hev⟩

/-- Budget safety of `_add_regular_session`: the emitted session duration
(its only possible break is trailing) stays within the hour budget, and
an event list without sessions is empty. -/
theorem addRegularSession_inter (s : SubjData) (cd : ℤ) (ct avail ms bk : ℚ) :
    interSum (addRegularSession s cd ct avail ms bk).events ≤ max avail 0
    ∧ ((addRegularSession s cd ct avail ms bk).events.any Event.isSession = false
        → (addRegularSession s cd ct avail ms bk).events = []) := by
  rcases addRegularSession_spec s cd ct avail ms bk with ⟨he, -⟩ |
    ⟨k, hk, -, -, t2, -, -, -, -, hev⟩
  · rw [he]
    exact ⟨by simpa [interSum] using le_max_right avail 0, fun _ => rfl⟩
  · have hd : min ms (min avail (s.topics.get ⟨k, hk⟩).remaining_hours) ≤ avail :=
      le_trans (min_le_right _ _) (min_le_left _ _)
    rcases hev with hev | hev <;> rw [hev]
    · constructor
      · simp only [interSum, Event.isSession, List.any_cons, List.any_nil, regSessionAt]
        simpa using le_trans hd (le_max_left _ _)
      · intro hfalse; simp [Event.isSession] at hfalse
    · constructor
      · simp only [interSum, regSessionAt]
        simpa using le_trans hd (le_max_left _ _)
      · intro hfalse; simp [Event.isSession] at hfalse

/-- When the subject is not already completed, `_add_regular_session`
marks it completed exactly when the topic cursor runs past the last topic
and no session is emitted. -/
theorem addRegularSession_completes (s : SubjData) (cd : ℤ) (ct avail ms bk : ℚ)
    (h : s.subject_completed = false) :
    ((addRegularSession s cd ct avail ms bk).subj.subject_completed = true
      ↔ (addRegularSession s cd ct avail ms bk).events = []) := by
  simp only [addRegularSession, h]
  rw [if_neg (by simp)]
  exact addRegularGo_ran_out s.name cd s.topics ct avail ms bk s.topics.length
    s.current_topic_index (Nat.le_add_right _ _)

/-- Every session emitted by `_add_revision_session` has type
`"revision"`, the subject's name, the current date, and a duration between
the `0.1` skip floor and each of `max_session_duration` and the
time-per-topic slice. -/
theorem addRevisionSession_sessions (s : SubjData) (cd : ℤ) (ct avail ms bk : ℚ) :
    ∀ sess ∈ sessionsOf (addRevisionSession s cd ct avail ms bk).events,
      sess.session_type = "revision" ∧ sess.subject = s.name ∧ sess.date = cd ∧
        1/10 ≤ sess.duration_hours ∧ sess.duration_hours ≤ ms ∧
        sess.duration_hours ≤ revTimePerTopic s avail := by
  intro sess hs
  simp only [addRevisionSession] at hs
  split at hs
  · simp [sessionsOf] at hs
  · split at hs
    · simp [sessionsOf] at hs
    · exact addRevisionGo_sessions _ _ _ _ _ _ _ _ _ _ _ _ _ sess hs

/-- `_add_revision_session` reports as `hours_used` exactly the sum of the
durations of the sessions and breaks it emitted. -/
theorem addRevisionSession_hours (s : SubjData) (cd : ℤ) (ct avail ms bk : ℚ) :
    (addRevisionSession s cd ct avail ms bk).hours_used
      = fullSum (addRevisionSession s cd ct avail ms bk).events := by
  simp only [addRevisionSession]
  split
  · simp [fullSum]
  · split
    · simp [fullSum]
    · simpa using addRevisionGo_hours s.name cd s.topics _ ms bk _ _ _ _ avail 0 ct

/-- Budget safety of `_add_revision_session`: session durations plus the
breaks followed by a later session stay within the hour budget it was
given, and if it emits any event at all the budget was above `0.1`;
eventless results stay eventless under `sessionsOf`. -/
theorem addRevisionSession_inter (s : SubjData) (cd : ℤ) (ct avail ms bk : ℚ) :
    interSum (addRevisionSession s cd ct avail ms bk).events ≤ max avail 0
    ∧ ((addRevisionSession s cd ct avail ms bk).events.any Event.isSession = false
        → (addRevisionSession s cd ct avail ms bk).events = []) := by
  simp only [addRevisionSession]
  split
  · exact ⟨by simpa [interSum] using le_max_right avail 0, fun _ => rfl⟩
  · split
    · exact ⟨by simpa [interSum] using le_max_right avail 0, fun _ => rfl⟩
    · exact ⟨(addRevisionGo_inter _ _ _ _ _ _ _ _ _ _ _ _ _).1,
        (addRevisionGo_inter _ _ _ _ _ _ _ _ _ _ _ _ _).2.2⟩

/-- `_add_revision_session` emits at most `min(topics_to_revise, 5)`
sessions, where `topics_to_revise` counts the not-yet-completed topics. -/
theorem addRevisionSession_count (s : SubjData) (cd : ℤ) (ct avail ms bk : ℚ) :
    (sessionsOf (addRevisionSession s cd ct avail ms bk).events).length
      ≤ min ((s.topics.filter fun t => !t.completed).length) 5 := by
  simp only [addRevisionSession]
  split
  · simp [sessionsOf]
  · split
    · simp [sessionsOf]
    · dsimp only
      have h := addRevisionGo_count s.name cd s.topics
        (min (1/2) (avail / ((min ((s.topics.filter fun t => !t.completed).length) 5 : ℕ) : ℚ)))
        ms bk (min ((s.topics.filter fun t => !t.completed).length) 5)
        s.topics.length 0 0 avail 0 ct
      have h2 := h.2 (Nat.zero_le _)
      omega

/-- The topic labels of a revision call's sessions follow the subject's
topic list order (over all topics, completed or not). -/
theorem addRevisionSession_labels (s : SubjData) (cd : ℤ) (ct avail ms bk : ℚ) :
    ((sessionsOf (addRevisionSession s cd ct avail ms bk).events).map Session.topic).Sublist
      (s.topics.map fun t => "Revision: " ++ t.name) := by
  simp only [addRevisionSession]
  split
  · simp [sessionsOf]
  · split
    · simp [sessionsOf]
    · simpa using addRevisionGo_labels s.name cd s.topics _ ms bk _ s.topics.length 0 0 avail 0 ct

/-- Every break inserted by a revision call has the configured
`break_duration`. -/
theorem addRevisionSession_breaks (s : SubjData) (cd : ℤ) (ct avail ms bk : ℚ) :
    ∀ b, Event.brk b ∈ (addRevisionSession s cd ct avail ms bk).events → b = bk := by
  simp only [addRevisionSession]
  split
  · intro b hb; simp at hb
  · split
    · intro b hb; simp at hb
    · exact addRevisionGo_breaks s.name cd s.topics _ ms bk _ s.topics.length 0 0 avail 0 ct

/-- The subject record returned by `addRevisionSession` is the input
record with at most the `revision_completed` field changed. -/
theorem addRevisionSession_subj_cases (s : SubjData) (cd : ℤ) (ct avail ms bk : ℚ) :
    (addRevisionSession s cd ct avail ms bk).subj = s ∨
      (addRevisionSession s cd ct avail ms bk).subj = { s with revision_completed := true } := by
  unfold addRevisionSession
  split
  · exact Or.inl rfl
  · dsimp only
    split
    · exact Or.inl rfl
    · split
      · exact Or.inr rfl
      · exact Or.inl rfl

/-- Claim C10: a call to the revision allocator (`_add_revision_session`)
never modifies any topic's `remaining_hours` or `completed` flag, nor the
subject's `current_topic_index` or `subject_completed` flag; the only piece
of allocation-progress state it may change is the subject's
`revision_completed` flag (and every session it emits has type
`"revision"`, so revision sessions never count toward topic
completion). -/
theorem claim_C10_revision_frame (s : SubjData) (cd : ℤ) (ct avail ms bk : ℚ) :
    (addRevisionSession s cd ct avail ms bk).subj.topics = s.topics ∧
    (addRevisionSession s cd ct avail ms bk).subj.current_topic_index
        = s.current_topic_index ∧
    (addRevisionSession s cd ct avail ms bk).subj.subject_completed
        = s.subject_completed ∧
    (addRevisionSession s cd ct avail ms bk).subj.name = s.name ∧
    (addRevisionSession s cd ct avail ms bk).subj.exam_date = s.exam_date ∧
    (addRevisionSession s cd ct avail ms bk).subj.needs_revision = s.needs_revision ∧
    (addRevisionSession s cd ct avail ms bk).subj.importance = s.importance ∧
    ((addRevisionSession s cd ct avail ms bk).subj.revision_completed
        = s.revision_completed ∨
      (addRevisionSession s cd ct avail ms bk).subj.revision_completed = true) ∧
    ∀ sess ∈ sessionsOf (addRevisionSession s cd ct avail ms bk).events,
      sess.session_type = "revision" := by
  rcases addRevisionSession_subj_cases s cd ct avail ms bk with h | h <;>
    rw [h] <;>
    exact ⟨rfl, rfl, rfl, rfl, rfl, rfl, rfl, by simp,
      fun sess hs => (addRevisionSession_sessions s cd ct avail ms bk sess hs).1⟩

/-- Claim C7: on a subject's revision day, the revision allocator selects
up to `min(number of uncompleted topics, 5)` of the subject's topics in
list order regardless of completion state; each revised topic gets a slice
of at least the 6-minute (0.1 h) skip floor and at most each of
`session_duration`, the remaining budget, and `time_per_topic =
min(0.5, budget / topics_to_revise)`; the slices together stay within the
budget, so the loop stops at the topic quota, the 5-topic cap, or budget
exhaustion. -/
theorem claim_C7_revision_selection (s : SubjData) (cd : ℤ) (ct avail ms bk : ℚ)
    (havail : 0 ≤ avail) (hbk : 0 ≤ bk) :
    (sessionsOf (addRevisionSession s cd ct avail ms bk).events).length
        ≤ min ((s.topics.filter fun t => !t.completed).length) 5
    ∧ (∀ sess ∈ sessionsOf (addRevisionSession s cd ct avail ms bk).events,
        1/10 ≤ sess.duration_hours ∧ sess.duration_hours ≤ ms
          ∧ sess.duration_hours ≤ revTimePerTopic s avail)
    ∧ ((sessionsOf (addRevisionSession s cd ct avail ms bk).events).map Session.topic).Sublist
        (s.topics.map fun t => "Revision: " ++ t.name)
    ∧ durSum (sessionsOf (addRevisionSession s cd ct avail ms bk).events) ≤ avail := by
  refine ⟨addRevisionSession_count s cd ct avail ms bk, ?_, ?_, ?_⟩
  · intro sess hs
    obtain ⟨-, -, -, h4, h5, h6⟩ := addRevisionSession_sessions s cd ct avail ms bk sess hs
    exact ⟨h4, h5, h6⟩
  · exact addRevisionSession_labels s cd ct avail ms bk
  · have h1 := durSum_le_interSum (addRevisionSession s cd ct avail ms bk).events
      (fun b hb => (addRevisionSession_breaks s cd ct avail ms bk b hb) ▸ hbk)
    have h2 := (addRevisionSession_inter s cd ct avail ms bk).1
    have h3 : max avail 0 = avail := max_eq_left havail
    exact le_trans h1 (le_trans h2 (le_of_eq h3))

/-- Witness for C7: the concrete two-topic subject `subjW` with a 2 h
budget gets exactly two half-hour revision slices, totalling 1 h ≤ 2 h. -/
theorem claim_C7_witness :
    ((0 : ℚ) ≤ 2 ∧ (0 : ℚ) ≤ 1/4)
    ∧ durSum (sessionsOf (addRevisionSession subjW 0 9 2 (3/2) (1/4)).events) = 1
    ∧ durSum (sessionsOf (addRevisionSession subjW 0 9 2 (3/2) (1/4)).events) ≤ 2 :=
  ⟨⟨by norm_num, by norm_num⟩, by with_unfolding_all decide,
    (claim_C7_revision_selection subjW 0 9 2 (3/2) (1/4) (by norm_num) (by norm_num)).2.2.2⟩

/-! ## Degraded-input behaviour (C8) -/

/-- A pass iteration is a no-op once `hours_left` is below the half-hour
floor. -/
theorem passStep_no_budget (prefs : StudyPreferences) (mode : PassMode) (cd : ℤ)
    (st : DayState) (i : ℕ) (h : st.hoursLeft < 1/2) :
    passStep prefs mode cd st i = st := by
  unfold passStep
  rw [if_pos h]

theorem foldl_passStep_no_budget (prefs : StudyPreferences) (mode : PassMode) (cd : ℤ)
    (st : DayState) (h : st.hoursLeft < 1/2) (l : List ℕ) :
    l.foldl (passStep prefs mode cd) st = st := by
  induction l with
  | nil => rfl
  | cons a l ih => rw [List.foldl_cons, passStep_no_budget prefs mode cd st a h, ih]

/-- A day whose budget is below half an hour schedules nothing and leaves
every subject untouched. -/
theorem processDay_no_budget (prefs : StudyPreferences) (cd : ℤ) (subs : List SubjData)
    (h : dayBudget prefs cd < 1/2) :
    processDay prefs cd subs = (subs, []) := by
  have hst : ∀ (l : List ℕ) (m : PassMode),
      l.foldl (passStep prefs m cd)
          ⟨subs, dayBudget prefs cd, 9, [], []⟩
        = ⟨subs, dayBudget prefs cd, 9, [], []⟩ :=
    fun l m => foldl_passStep_no_budget prefs m cd _ h l
  simp only [processDay, processDaySt, hst]

/-- If both daily budgets are below the half-hour floor, the schedule loop
records no day at all. -/
theorem schedGo_days_no_budget (prefs : StudyPreferences)
    (hw : prefs.weekday_hours < 1/2) (he : prefs.weekend_hours < 1/2) :
    ∀ (n : ℕ) (cd : ℤ) (subs : List SubjData), (schedGo prefs cd n subs).daysE = [] := by
  intro n
  induction n with
  | zero => intro cd subs; rfl
  | succ n ih =>
    intro cd subs
    have hbudget : dayBudget prefs cd < 1/2 := by
      unfold dayBudget; split <;> assumption
    simp only [schedGo]
    split
    · exact ih _ _
    · rw [processDay_no_budget prefs cd subs hbudget]
      simpa [sessionsOf] using ih _ _

/-- Claim C8: for semantically invalid input the engine degrades to an
empty plan instead of failing: an inverted date range yields no scheduled
days, zero study hours and zero available hours; all-negative daily hour
budgets yield no scheduled days and zero study hours; and the revision
allocator's time-per-topic division is guarded by an early return when the
eligible-topic count is zero. -/
theorem claim_C8_invalid_input_degrades :
    (∀ req : StudyPlanRequest, req.end_date < req.start_date →
      (generateStudyPlan req).days = []
        ∧ (generateStudyPlan req).total_study_hours = 0
        ∧ (generateStudyPlan req).available_hours = 0)
    ∧ (∀ req : StudyPlanRequest,
        req.preferences.weekday_hours < 0 → req.preferences.weekend_hours < 0 →
        (generateStudyPlan req).days = []
          ∧ (generateStudyPlan req).total_study_hours = 0)
    ∧ (∀ (s : SubjData) (cd : ℤ) (ct avail ms bk : ℚ),
        (s.topics.filter fun t => !t.completed).length = 0 →
        addRevisionSession s cd ct avail ms bk
          = { hours_used := 0, new_time := ct, subj := s, events := [] }) := by
  refine ⟨?_, ?_, ?_⟩
  · intro req hlt
    have h0 : rangeLen req.start_date req.end_date = 0 := by
      unfold rangeLen; omega
    simp [generateStudyPlan, generateRuleBasedSchedule, availableHours, h0, schedGo,
      availGo, durSum]
  · intro req hw he
    have hd : (generateRuleBasedSchedule req.subjects req.start_date req.end_date
        req.preferences).daysE = [] :=
      schedGo_days_no_budget req.preferences
        (lt_trans hw (by norm_num)) (lt_trans he (by norm_num)) _ _ _
    simp [generateStudyPlan, hd, durSum]
  · intro s cd ct avail ms bk h
    simp only [addRevisionSession, h]
    split
    · rfl
    · simp

/-- Witness for C8: the inverted-range request, the all-negative-budget
request, and the fully-revised subject all degrade as claimed. -/
theorem claim_C8_witness :
    (reqInverted.end_date < reqInverted.start_date
      ∧ (generateStudyPlan reqInverted).days = []
      ∧ (generateStudyPlan reqInverted).available_hours = 0)
    ∧ (reqNeg.preferences.weekday_hours < 0
      ∧ (generateStudyPlan reqNeg).days = []
      ∧ (generateStudyPlan reqNeg).total_study_hours = 0)
    ∧ addRevisionSession subjDone 0 9 2 (3/2) (1/4)
        = { hours_used := 0, new_time := 9, subj := subjDone, events := [] } :=
  ⟨⟨by decide, (claim_C8_invalid_input_degrades.1 reqInverted (by decide)).1,
      (claim_C8_invalid_input_degrades.1 reqInverted (by decide)).2.2⟩,
    ⟨by with_unfolding_all decide,
      (claim_C8_invalid_input_degrades.2.1 reqNeg (by with_unfolding_all decide)
        (by with_unfolding_all decide)).1,
      (claim_C8_invalid_input_degrades.2.1 reqNeg (by with_unfolding_all decide)
        (by with_unfolding_all decide)).2⟩,
    claim_C8_invalid_input_degrades.2.2 subjDone 0 9 2 (3/2) (1/4) (by decide)⟩

/-! ## The per-day budget invariant (C3) -/

/-- Generic foldl preservation of an invariant. -/
theorem foldl_inv {σ : Type} {α : Type} (P : σ → Prop) (f : σ → α → σ)
    (hf : ∀ s a, P s → P (f s a)) :
    ∀ (l : List α) (s : σ), P s → P (l.foldl f s) := by
  intro l
  induction l with
  | nil => intro s hs; exact hs
  | cons a l ih => intro s hs; exact ih (f s a) (hf s a hs)

/-- Appending one allocator call's events to a day state preserves
`C3Inv`, provided the call's target was within the remaining hours and the
call satisfies the allocator accounting lemmas. -/
theorem C3Inv_extend (B : ℚ) (st : DayState) (h : C3Inv B st)
    (hhl : 1/2 ≤ st.hoursLeft) (used t : ℚ) (evs : List Event)
    (ht : t ≤ st.hoursLeft) (ht0 : 0 ≤ t)
    (hused : used = fullSum evs) (hinter : interSum evs ≤ max t 0)
    (hempty : evs.any Event.isSession = false → evs = [])
    (subs' : List SubjData) (clock' : ℚ) (cov' : List String) :
    C3Inv B ⟨subs', st.hoursLeft - used, clock', st.events ++ evs, cov'⟩ := by
  obtain ⟨h1, h2, h3⟩ := h
  have hB : 1/2 ≤ B ∨ st.events = [] := by
    rcases List.eq_nil_or_concat st.events with he | ⟨l, e, he⟩
    · exact Or.inr he
    · exact Or.inl (h3 (by simp [he]))
  refine ⟨?_, ?_, ?_⟩
  · rw [fullSum_append, h1, hused]; ring
  · cases hany : evs.any Event.isSession with
    | false =>
      rw [interSum_append_of_no_session _ _ hany]
      exact h2
    | true =>
      rw [interSum_append_of_session _ _ hany, h1]
      have hBpos : 1/2 ≤ B := by
        rcases hB with hB | hB
        · exact hB
        · rw [hB] at h1
          simp only [fullSum] at h1
          have : B = st.hoursLeft := by linarith
          linarith
      have hmax : max t 0 = t := max_eq_left ht0
      rw [hmax] at hinter
      have : B - st.hoursLeft + interSum evs ≤ B := by linarith [le_trans hinter ht]
      exact le_trans this (le_max_left _ _)
  · intro hne
    rcases hB with hB | hB
    · exact hB
    · rw [hB] at h1
      simp only [fullSum] at h1
      have hBhl : B = st.hoursLeft := by linarith
      linarith

/-- The pass target is positive and within the remaining hours once the
half-hour guard has passed. -/
theorem passTarget_bounds (mode : PassMode) (hl : ℚ) (h : 1/2 ≤ hl) :
    passTarget mode hl ≤ hl ∧ 0 ≤ passTarget mode hl := by
  cases mode with
  | urgent => exact ⟨min_le_right _ _, le_min (by norm_num) (by linarith)⟩
  | high => exact ⟨min_le_right _ _, le_min (by norm_num) (by linarith)⟩
  | med =>
    constructor
    · exact le_refl _
    · simp only [passTarget]; linarith
  | low =>
    constructor
    · exact le_refl _
    · simp only [passTarget]; linarith

/-- One pass iteration preserves the day invariant. -/
theorem passStep_C3 (prefs : StudyPreferences) (mode : PassMode) (cd : ℤ)
    (B : ℚ) (st : DayState) (i : ℕ) (h : C3Inv B st) :
    C3Inv B (passStep prefs mode cd st i) := by
  unfold passStep
  split
  · exact h
  · next hhl =>
    have hhl2 : 1/2 ≤ st.hoursLeft := le_of_not_lt hhl
    obtain ⟨htle, ht0⟩ := passTarget_bounds mode st.hoursLeft hhl2
    split
    · exact h
    · next s hs =>
      split
      · exact C3Inv_extend B st h hhl2 _ _ _ htle ht0
          (addRevisionSession_hours s cd st.clock _ _ _)
          (addRevisionSession_inter s cd st.clock _ _ _).1
          (addRevisionSession_inter s cd st.clock _ _ _).2 _ _ _
      · exact C3Inv_extend B st h hhl2 _ _ _ htle ht0
          (addRegularSession_hours s cd st.clock _ _ _)
          (addRegularSession_inter s cd st.clock _ _ _).1
          (addRegularSession_inter s cd st.clock _ _ _).2 _ _ _

/-- The four passes preserve the day invariant from the fresh morning
state. -/
theorem processDaySt_C3 (prefs : StudyPreferences) (cd : ℤ) (subs : List SubjData) :
    C3Inv (dayBudget prefs cd) (processDaySt prefs cd subs) := by
  simp only [processDaySt]
  apply foldl_inv _ _ (passStep_C3 prefs .low cd (dayBudget prefs cd))
  apply foldl_inv _ _ (passStep_C3 prefs .med cd (dayBudget prefs cd))
  apply foldl_inv _ _ (passStep_C3 prefs .high cd (dayBudget prefs cd))
  apply foldl_inv _ _ (passStep_C3 prefs .urgent cd (dayBudget prefs cd))
  exact ⟨by simp [fullSum], by simpa [interSum] using le_max_right _ 0,
    fun hc => absurd rfl hc⟩

/-- If a day schedules any session, its sessions plus the breaks inserted
between them stay within the day's hour budget. -/
theorem processDay_snd (prefs : StudyPreferences) (cd : ℤ) (subs : List SubjData) :
    (processDay prefs cd subs).2 = (processDaySt prefs cd subs).events := by
  simp only [processDay]

theorem processDay_C3 (prefs : StudyPreferences) (cd : ℤ) (subs : List SubjData)
    (hne : sessionsOf (processDay prefs cd subs).2 ≠ []) :
    interSum (processDay prefs cd subs).2 ≤ dayBudget prefs cd := by
  rw [processDay_snd] at hne ⊢
  obtain ⟨-, h2, h3⟩ := processDaySt_C3 prefs cd subs
  have hev : (processDaySt prefs cd subs).events ≠ [] := by
    intro hc
    rw [hc] at hne
    exact hne rfl
  have hBpos : 1/2 ≤ dayBudget prefs cd := h3 hev
  have hmax : max (dayBudget prefs cd) 0 = dayBudget prefs cd :=
    max_eq_left (by linarith)
  exact le_trans h2 (le_of_eq hmax)

/-- Every recorded day of the schedule loop keeps its sessions plus
inserted inner breaks within that day's budget. -/
theorem schedGo_C3 (prefs : StudyPreferences) :
    ∀ (n : ℕ) (cd : ℤ) (subs : List SubjData),
      ∀ d ∈ (schedGo prefs cd n subs).daysE,
        interSum d.events ≤ dayBudget prefs d.date := by
  intro n
  induction n with
  | zero => intro cd subs d hd; simp [schedGo] at hd
  | succ n ih =>
    intro cd subs d hd
    simp only [schedGo] at hd
    split at hd
    · exact ih _ _ d hd
    · dsimp only at hd
      split at hd
      · exact ih _ _ d hd
      · next hne =>
        rcases List.mem_cons.mp hd with rfl | hd
        · dsimp only
          exact processDay_C3 prefs cd subs hne
        · exact ih _ _ d hd

/-- The head taken with a default is a member of any nonempty list. -/
theorem list_getD_mem {α : Type} (l : List α) (x : α) (h : l ≠ []) :
    l.getD 0 x ∈ l := by
  cases l with
  | nil => exact absurd rfl h
  | cons a t => exact List.mem_cons_self a t

/-- Claim C3: for every input and every recorded `StudyDay`, the sum of
that day's session durations plus the breaks inserted between them is at
most the day's hour budget (`weekend_hours` on Saturday/Sunday, otherwise
`weekday_hours`); the response's days are exactly the recorded days with
their session lists. -/
theorem claim_C3_day_budget (req : StudyPlanRequest) :
    (∀ d ∈ planDaysE req, interSum d.events ≤ dayBudget req.preferences d.date)
    ∧ (generateStudyPlan req).days
        = (planDaysE req).map fun d => StudyDay.mk d.date (sessionsOf d.events) := by
  constructor
  · intro d hd
    simp only [planDaysE, generateRuleBasedSchedule] at hd
    exact schedGo_C3 req.preferences _ _ _ d hd
  · simp only [generateStudyPlan, planDaysE, generateRuleBasedSchedule]

/-- Witness for C3: the single recorded day of `reqSmall` (one 1 h session
plus a trailing break) stays within its 3 h Monday budget. -/
theorem claim_C3_witness :
    dayW ∈ planDaysE reqSmall
    ∧ interSum dayW.events ≤ dayBudget reqSmall.preferences dayW.date :=
  ⟨list_getD_mem _ _ (by with_unfolding_all decide),
    (claim_C3_day_budget reqSmall).1 dayW
      (list_getD_mem _ _ (by with_unfolding_all decide))⟩

/-! ## Session validity (C5) -/

/-- Once the half-hour guard has passed, every pass target is at least
half an hour. -/
theorem passTarget_half (mode : PassMode) (hl : ℚ) (h : 1/2 ≤ hl) :
    1/2 ≤ passTarget mode hl := by
  cases mode with
  | urgent => exact le_min (by norm_num) h
  | high => exact le_min (by norm_num) h
  | med => exact h
  | low => exact h

/-- Every session a regular call emits is valid when `session_duration`
is positive and the call's budget is at least half an hour. -/
theorem addRegularSession_C5 (s : SubjData) (cd : ℤ) (ct avail ms bk : ℚ)
    (hms : 0 < ms) (havail : 1/2 ≤ avail) :
    ∀ sess ∈ sessionsOf (addRegularSession s cd ct avail ms bk).events, SessOK ms sess := by
  intro sess hs
  rcases addRegularSession_spec s cd ct avail ms bk with ⟨he, -⟩ |
    ⟨k, hk, hrem, -, t2, -, -, -, -, hev⟩
  · rw [he] at hs; simp [sessionsOf] at hs
  · have hpos : 0 < min ms (min avail (s.topics.get ⟨k, hk⟩).remaining_hours) :=
      lt_min hms (lt_min (by linarith) (by linarith))
    rcases hev with hev | hev <;> rw [hev] at hs <;>
      simp only [sessionsOf, List.filterMap_cons, List.filterMap_nil, List.mem_cons,
        List.not_mem_nil, or_false, List.mem_singleton] at hs <;> rw [hs] <;>
      exact ⟨hpos, min_le_left _ _⟩

/-- Every session a revision call emits is valid. -/
theorem addRevisionSession_C5 (s : SubjData) (cd : ℤ) (ct avail ms bk : ℚ) :
    ∀ sess ∈ sessionsOf (addRevisionSession s cd ct avail ms bk).events, SessOK ms sess := by
  intro sess hs
  obtain ⟨-, -, -, h4, h5, -⟩ := addRevisionSession_sessions s cd ct avail ms bk sess hs
  exact ⟨by linarith, h5⟩

/-- A pass iteration preserves session validity of the accumulated
events. -/
theorem passStep_C5 (prefs : StudyPreferences) (mode : PassMode) (cd : ℤ)
    (hms : 0 < prefs.session_duration) (st : DayState) (i : ℕ)
    (h : ∀ sess ∈ sessionsOf st.events, SessOK prefs.session_duration sess) :
    ∀ sess ∈ sessionsOf (passStep prefs mode cd st i).events,
      SessOK prefs.session_duration sess := by
  unfold passStep
  split
  · exact h
  · next hhl =>
    have hhl2 : 1/2 ≤ st.hoursLeft := le_of_not_lt hhl
    have htgt : 1/2 ≤ passTarget mode st.hoursLeft := passTarget_half mode _ hhl2
    split
    · exact h
    · next s hs =>
      split
      · intro sess hmem
        rw [sessionsOf_append] at hmem
        rcases List.mem_append.mp hmem with hmem | hmem
        · exact h sess hmem
        · exact addRevisionSession_C5 s cd st.clock _ _ _ sess hmem
      · intro sess hmem
        rw [sessionsOf_append] at hmem
        rcases List.mem_append.mp hmem with hmem | hmem
        · exact h sess hmem
        · exact addRegularSession_C5 s cd st.clock _ _ _ hms htgt sess hmem

/-- All sessions of a day are valid when `session_duration` is
positive. -/
theorem processDay_C5 (prefs : StudyPreferences) (cd : ℤ) (subs : List SubjData)
    (hms : 0 < prefs.session_duration) :
    ∀ sess ∈ sessionsOf (processDay prefs cd subs).2,
      SessOK prefs.session_duration sess := by
  rw [processDay_snd]
  simp only [processDaySt]
  apply foldl_inv _ _ (passStep_C5 prefs .low cd hms)
  apply foldl_inv _ _ (passStep_C5 prefs .med cd hms)
  apply foldl_inv _ _ (passStep_C5 prefs .high cd hms)
  apply foldl_inv _ _ (passStep_C5 prefs .urgent cd hms)
  intro sess hs
  simp [sessionsOf] at hs

/-- All sessions of the whole schedule are valid when `session_duration`
is positive. -/
theorem schedGo_C5 (prefs : StudyPreferences) (hms : 0 < prefs.session_duration) :
    ∀ (n : ℕ) (cd : ℤ) (subs : List SubjData),
      ∀ d ∈ (schedGo prefs cd n subs).daysE,
        ∀ sess ∈ sessionsOf d.events, SessOK prefs.session_duration sess := by
  intro n
  induction n with
  | zero => intro cd subs d hd; simp [schedGo] at hd
  | succ n ih =>
    intro cd subs d hd
    simp only [schedGo] at hd
    split at hd
    · exact ih _ _ d hd
    · dsimp only at hd
      split at hd
      · exact ih _ _ d hd
      · rcases List.mem_cons.mp hd with rfl | hd
        · dsimp only
          exact processDay_C5 prefs cd subs hms
        · exact ih _ _ d hd

/-- The response's day list is the recorded days with their session
lists. -/
theorem generateStudyPlan_days (req : StudyPlanRequest) :
    (generateStudyPlan req).days
      = (planDaysE req).map fun d => StudyDay.mk d.date (sessionsOf d.events) := by
  simp only [generateStudyPlan, planDaysE, generateRuleBasedSchedule]

/-- Claim C5 (amended: the claim as stated fails when
`preferences.session_duration ≤ 0`, see the counterexample; it holds for
every input whose `session_duration` is positive): every session in the
response has `0 < duration_hours ≤ preferences.session_duration`. -/
theorem claim_C5_amended (req : StudyPlanRequest)
    (hms : 0 < req.preferences.session_duration) :
    ∀ d ∈ (generateStudyPlan req).days, ∀ sess ∈ d.sessions,
      0 < sess.duration_hours
        ∧ sess.duration_hours ≤ req.preferences.session_duration := by
  intro d hd sess hs
  rw [generateStudyPlan_days] at hd
  obtain ⟨d0, hd0, rfl⟩ := List.mem_map.mp hd
  obtain ⟨h1, h2⟩ := schedGo_C5 req.preferences hms _ _ _ d0
    (by simpa [planDaysE, generateRuleBasedSchedule] using hd0) sess hs
  exact ⟨h1, h2⟩

/-- Counterexample to C5 as stated: with `session_duration = 0` the
engine still emits a session, and that session's duration is `0`, not
positive. -/
theorem claim_C5_counterexample :
    (generateStudyPlan reqZeroSess).days ≠ []
    ∧ ((generateStudyPlan reqZeroSess).days.getD 0 ⟨0, []⟩).sessions ≠ []
    ∧ (((generateStudyPlan reqZeroSess).days.getD 0 ⟨0, []⟩).sessions.getD 0
        sessDefault).duration_hours = 0 := by
  refine ⟨?_, ?_, ?_⟩ <;> with_unfolding_all decide

/-- Witness for the amended C5: the single session of `reqSmall`'s plan
has a positive duration within the 1.5 h maximum. -/
theorem claim_C5_witness :
    (0 : ℚ) < reqSmall.preferences.session_duration
    ∧ ((generateStudyPlan reqSmall).days.getD 0 ⟨0, []⟩ ∈ (generateStudyPlan reqSmall).days)
    ∧ (0 < (((generateStudyPlan reqSmall).days.getD 0 ⟨0, []⟩).sessions.getD 0
          sessDefault).duration_hours
      ∧ (((generateStudyPlan reqSmall).days.getD 0 ⟨0, []⟩).sessions.getD 0
          sessDefault).duration_hours ≤ reqSmall.preferences.session_duration) :=
  ⟨by norm_num [reqSmall, prefsW],
    list_getD_mem _ _ (by with_unfolding_all decide),
    claim_C5_amended reqSmall (by norm_num [reqSmall, prefsW])
      ((generateStudyPlan reqSmall).days.getD 0 ⟨0, []⟩)
      (list_getD_mem _ _ (by with_unfolding_all decide))
      (((generateStudyPlan reqSmall).days.getD 0 ⟨0, []⟩).sessions.getD 0 sessDefault)
      (list_getD_mem _ _ (by with_unfolding_all decide))⟩

/-! ## End-of-day completion (C1) -/

/-- Characterization of the end-of-day completion check for one
non-completed subject, assuming the engine's topic integrity (a topic
flagged completed has no more than `0.01` remaining — true of every
reachable state since line 387 only sets the flag then): the subject
transitions exactly when its exam date has passed (the advanced date
exceeds it) or all topics are down to `≤ 0.01` remaining and revision is
complete or was never needed; on transition, exactly the topics with more
than `0.01` remaining are recorded, rounded to one decimal; without a
transition nothing is recorded. -/
theorem endOfDaySubject_spec (c : ℤ) (s : SubjData)
    (hnc : s.subject_completed = false)
    (hint : ∀ t ∈ s.topics, t.completed = true → t.remaining_hours ≤ 1/100) :
    ((endOfDaySubject c s).1.subject_completed = true
      ↔ (∃ e, s.exam_date = some e ∧ e < c)
        ∨ ((∀ t ∈ s.topics, t.remaining_hours ≤ 1/100)
            ∧ (s.revision_completed = true ∨ s.needs_revision = false)))
    ∧ ((endOfDaySubject c s).1.subject_completed = true →
        (endOfDaySubject c s).2
          = (s.topics.filter fun t => decide (1/100 < t.remaining_hours)).map
              fun t => { subject := s.name, topic := t.name,
                         hours_remaining := round1 t.remaining_hours })
    ∧ ((endOfDaySubject c s).1.subject_completed = false →
        (endOfDaySubject c s).2 = []) := by
  have hcondiff :
      ((match s.exam_date with
          | some e => decide (e < c)
          | none => false)
        || ((s.topics.all fun t => decide (t.remaining_hours ≤ 1/100) || t.completed)
            && (s.revision_completed || !s.needs_revision))) = true
      ↔ (∃ e, s.exam_date = some e ∧ e < c)
        ∨ ((∀ t ∈ s.topics, t.remaining_hours ≤ 1/100)
            ∧ (s.revision_completed = true ∨ s.needs_revision = false)) := by
    rw [Bool.or_eq_true, Bool.and_eq_true, List.all_eq_true]
    constructor
    · rintro (hexam | ⟨hall, hrest⟩)
      · left
        cases he : s.exam_date with
        | none => rw [he] at hexam; cases hexam
        | some e =>
          rw [he] at hexam
          exact ⟨e, rfl, of_decide_eq_true hexam⟩
      · right
        refine ⟨fun t ht => ?_, ?_⟩
        · rcases Bool.or_eq_true _ _ |>.mp (hall t ht) with hrem | hcomp
          · exact of_decide_eq_true hrem
          · exact hint t ht hcomp
        · rcases Bool.or_eq_true _ _ |>.mp hrest with hrev | hneed
          · exact Or.inl hrev
          · exact Or.inr (by simpa using hneed)
    · rintro (⟨e, he, hlt⟩ | ⟨hall, hrest⟩)
      · left
        rw [he]
        exact decide_eq_true hlt
      · right
        refine ⟨fun t ht => ?_, ?_⟩
        · exact Bool.or_eq_true _ _ |>.mpr (Or.inl (decide_eq_true (hall t ht)))
        · rcases hrest with hrev | hneed
          · exact Bool.or_eq_true _ _ |>.mpr (Or.inl hrev)
          · exact Bool.or_eq_true _ _ |>.mpr (Or.inr (by simpa using hneed))
  have hfilter :
      (s.topics.filter fun t => decide (t.remaining_hours > 1/100) && !t.completed)
        = s.topics.filter fun t => decide (1/100 < t.remaining_hours) := by
    apply List.filter_congr
    intro t ht
    cases hc : t.completed with
    | false => simp
    | true =>
      have := hint t ht hc
      simp only [Bool.not_true, Bool.and_false]
      rw [decide_eq_false (by simpa using not_lt.mpr this)]
  unfold endOfDaySubject
  rw [if_neg (by simp [hnc])]
  dsimp only
  split
  · next hcond =>
    refine ⟨?_, fun _ => ?_, fun hfalse => ?_⟩
    · simp only [true_iff]
      exact hcondiff.mp hcond
    · dsimp only
      rw [hfilter]
    · simp at hfalse
  · next hcond =>
    refine ⟨?_, fun htrue => ?_, fun _ => rfl⟩
    · rw [hnc]
      simp only [Bool.false_eq_true, false_iff]
      intro hrhs
      exact hcond (hcondiff.mpr hrhs)
    · rw [hnc] at htrue
      cases htrue

/-- Counterexample to C1 as stated: after day 0 the subject `subjMid` has
all topics finished but still needs revision, so the claimed
day-advance rule would not complete it; yet during day 1's passes (mid-
day, before any day-advance check) the regular allocator marks it
completed, with `revision_completed` still false and the exam (day 10)
not passed. -/
theorem claim_C1_counterexample :
    (midAfterDay0.getD 0 (initSubject subjMid)).subject_completed = false
    ∧ (midAfterDay0.getD 0 (initSubject subjMid)).needs_revision = true
    ∧ (midAfterDay0.getD 0 (initSubject subjMid)).revision_completed = false
    ∧ (midAfterDay0.getD 0 (initSubject subjMid)).exam_date = some 10
    ∧ ((processDay prefsW 1 midAfterDay0).1.getD 0
        (initSubject subjMid)).subject_completed = true
    ∧ ((processDay prefsW 1 midAfterDay0).1.getD 0
        (initSubject subjMid)).revision_completed = false := by
  refine ⟨?_, ?_, ?_, ?_, ?_, ?_⟩ <;> with_unfolding_all decide

/-- Claim C1 (amended: in addition to the day-advance transition the
claim describes, a non-completed subject is also marked COMPLETED
mid-day when the regular allocator's topic cursor runs past the last
topic, i.e. exactly when a regular call emits no session — a path that
ignores the revision condition; see the counterexample):
at day-advance time a non-completed subject transitions to COMPLETED
exactly when the advanced date exceeds its exam date or all its topics
have `remaining_hours ≤ 0.01` and revision is completed or was never
needed, and on that transition every topic with `remaining_hours > 0.01`
is recorded as an unallocated entry with its remaining hours rounded to
one decimal. -/
theorem claim_C1_amended :
    (∀ (c : ℤ) (s : SubjData),
      s.subject_completed = false →
      (∀ t ∈ s.topics, t.completed = true → t.remaining_hours ≤ 1/100) →
      ((endOfDaySubject c s).1.subject_completed = true
        ↔ (∃ e, s.exam_date = some e ∧ e < c)
          ∨ ((∀ t ∈ s.topics, t.remaining_hours ≤ 1/100)
              ∧ (s.revision_completed = true ∨ s.needs_revision = false)))
      ∧ ((endOfDaySubject c s).1.subject_completed = true →
          (endOfDaySubject c s).2
            = (s.topics.filter fun t => decide (1/100 < t.remaining_hours)).map
                fun t => { subject := s.name, topic := t.name,
                           hours_remaining := round1 t.remaining_hours })
      ∧ ((endOfDaySubject c s).1.subject_completed = false →
          (endOfDaySubject c s).2 = []))
    ∧ (∀ (s : SubjData) (cd : ℤ) (ct avail ms bk : ℚ),
        s.subject_completed = false →
        ((addRegularSession s cd ct avail ms bk).subj.subject_completed = true
          ↔ (addRegularSession s cd ct avail ms bk).events = [])) :=
  ⟨fun c s hnc hint => endOfDaySubject_spec c s hnc hint,
    fun s cd ct avail ms bk h => addRegularSession_completes s cd ct avail ms bk h⟩

/-- Witness for the amended C1: `subjDone` (one finished topic, revision
still pending) transitions once its exam day has passed, and records no
unallocated topics. -/
theorem claim_C1_witness :
    (subjDone.subject_completed = false
      ∧ (∀ t ∈ subjDone.topics, t.completed = true → t.remaining_hours ≤ 1/100)
      ∧ (endOfDaySubject 3 subjDone).1.subject_completed = true)
    ∧ (endOfDaySubject 3 subjDone).2
        = (subjDone.topics.filter fun t => decide (1/100 < t.remaining_hours)).map
            fun t => { subject := subjDone.name, topic := t.name,
                       hours_remaining := round1 t.remaining_hours } :=
  ⟨⟨by decide, by with_unfolding_all decide, by with_unfolding_all decide⟩,
    (claim_C1_amended.1 3 subjDone (by decide) (by with_unfolding_all decide)).2.1
      (by with_unfolding_all decide)⟩

/-! ## The revision-completion floor (C2) -/

/-- Evaluation of the code at C2's failing input: on `subjRev`'s revision
day with a half-hour budget, the allocator revises only 2 of the required
`min(3, 5) = 3` topics and accordingly leaves `revision_completed` false —
but the engine (lines 187/226/261/293) sets the flag to true
unconditionally right after the call, so after the day's processing the
flag is true even though the floor was not reached. -/
theorem claim_C2_code_evaluation :
    (addRevisionSession (initSubject subjRev) 0 9 (1/2) (3/2)
        (1/4)).subj.revision_completed = false
    ∧ (sessionsOf (addRevisionSession (initSubject subjRev) 0 9 (1/2) (3/2)
        (1/4)).events).length = 2
    ∧ min 3 ((initSubject subjRev).topics.filter fun t => !t.completed).length = 3
    ∧ ((processDay prefsTight 0 [initSubject subjRev]).1.getD 0
        (initSubject subjRev)).revision_completed = true
    ∧ ((sessionsOf (processDay prefsTight 0 [initSubject subjRev]).2).filter
        fun sess => sess.session_type == "revision").length = 2 := by
  refine ⟨?_, ?_, ?_, ?_, ?_⟩ <;> with_unfolding_all decide

/-! ## The run invariant (C4, C6) -/

theorem sumRegFor_append (n tn : String) (S T : List Session) :
    sumRegFor n tn (S ++ T) = sumRegFor n tn S + sumRegFor n tn T := by
  simp [sumRegFor, List.filter_append, durSum_append]

theorem sumRegFor_nil (n tn : String) : sumRegFor n tn [] = 0 := rfl

theorem sumRegFor_eq_zero (n tn : String) (T : List Session)
    (h : ∀ sess ∈ T, regFor n tn sess = false) : sumRegFor n tn T = 0 := by
  have : T.filter (regFor n tn) = [] := List.filter_eq_nil.mpr fun sess hs => by
    rw [h sess hs]; exact Bool.false_ne_true
  simp [sumRegFor, this, durSum]

theorem sumRegFor_singleton (n tn : String) (sess : Session) :
    sumRegFor n tn [sess]
      = if regFor n tn sess then sess.duration_hours else 0 := by
  cases h : regFor n tn sess <;> simp [sumRegFor, List.filter, h, durSum]

theorem revSessionsFor_append (n : String) (S T : List Session) :
    revSessionsFor n (S ++ T) = revSessionsFor n S ++ revSessionsFor n T := by
  simp [revSessionsFor, List.filter_append]

theorem revSessionsFor_eq_nil (n : String) (T : List Session)
    (h : ∀ sess ∈ T, revFor n sess = false) : revSessionsFor n T = [] :=
  List.filter_eq_nil.mpr fun sess hs => by rw [h sess hs]; exact Bool.false_ne_true

/-- A regular session is not a revision session for anyone. -/
theorem revFor_false_of_regular (n : String) (sess : Session)
    (h : sess.session_type = "regular") : revFor n sess = false := by
  simp [revFor, h]

/-- A session for another subject is not a regular session for this
subject-topic pair. -/
theorem regFor_false_of_subject_ne (n tn : String) (sess : Session)
    (h : sess.subject ≠ n) : regFor n tn sess = false := by
  simp [regFor, h]

/-- A session for another subject is not a revision session for this
subject. -/
theorem revFor_false_of_subject_ne (n : String) (sess : Session)
    (h : sess.subject ≠ n) : revFor n sess = false := by
  simp [revFor, h]

/-- Distinct positions in a list with `Nodup` mapped names have distinct
names. -/
theorem names_ne (orig : List Subject) (hN : (orig.map Subject.name).Nodup)
    (i k : ℕ) (hi : i < orig.length) (hk : k < orig.length) (hik : i ≠ k) :
    (orig.get ⟨i, hi⟩).name ≠ (orig.get ⟨k, hk⟩).name := by
  intro hc
  have h1 : (orig.map Subject.name).get ⟨i, by simpa using hi⟩
      = (orig.map Subject.name).get ⟨k, by simpa using hk⟩ := by
    simpa using hc
  have := List.Nodup.get_inj_iff hN |>.mp h1
  exact hik (by simpa using this)

/-- Distinct positions in a topic list with `Nodup` mapped names have
distinct names. -/
theorem topic_names_ne (topics : List Topic)
    (hT : (topics.map Topic.name).Nodup)
    (i k : ℕ) (hi : i < topics.length) (hk : k < topics.length) (hik : i ≠ k) :
    (topics.get ⟨i, hi⟩).name ≠ (topics.get ⟨k, hk⟩).name := by
  intro hc
  have h1 : (topics.map Topic.name).get ⟨i, by simpa using hi⟩
      = (topics.map Topic.name).get ⟨k, by simpa using hk⟩ := by
    simpa using hc
  have := List.Nodup.get_inj_iff hT |>.mp h1
  exact hik (by simpa using this)

/-- A regular-session call on the subject at index `k` preserves the run
invariant: the one session it may emit is a regular session for that
subject's current topic, and it decrements exactly that topic's remaining
hours by its own duration. -/
theorem RunInv_regular_step (orig : List Subject) (rdb : ℤ)
    (hN : (orig.map Subject.name).Nodup)
    (hT : ∀ su ∈ orig, (su.topics.map Topic.name).Nodup)
    (subs : List SubjData) (S : List Session) (hinv : RunInv orig rdb subs S)
    (k : ℕ) (hk : k < subs.length) (cd : ℤ) (ct avail ms bk : ℚ) :
    RunInv orig rdb
      (subs.set k (addRegularSession (subs.get ⟨k, hk⟩) cd ct avail ms bk).subj)
      (S ++ sessionsOf (addRegularSession (subs.get ⟨k, hk⟩) cd ct avail ms bk).events) := by
  obtain ⟨hlen, hcomp⟩ := hinv
  have hkorig : k < orig.length := hlen ▸ hk
  obtain ⟨fname, fexam, fimp, fneeds, frev⟩ :=
    addRegularSession_frame (subs.get ⟨k, hk⟩) cd ct avail ms bk
  obtain ⟨hk1, hk2, hk3, hk4, -, -, -⟩ := hcomp k hkorig hk
  rcases addRegularSession_spec (subs.get ⟨k, hk⟩) cd ct avail ms bk with
    ⟨hev, htops⟩ | ⟨kt, hkt, hremt, hcompt, t2, htops, htn, hth, htr, hevs⟩
  · -- no session emitted, topic list unchanged
    have hnewS : sessionsOf (addRegularSession (subs.get ⟨k, hk⟩) cd ct avail ms bk).events
        = [] := by rw [hev]; rfl
    rw [hnewS, List.append_nil]
    refine ⟨by rw [List.length_set]; exact hlen, fun i hi hs => ?_⟩
    have hs0 : i < subs.length := by rw [List.length_set] at hs; exact hs
    by_cases hik : i = k
    · subst hik
      have hget : (subs.set i (addRegularSession (subs.get ⟨i, hk⟩) cd ct avail ms
          bk).subj).get ⟨i, hs⟩
          = (addRegularSession (subs.get ⟨i, hk⟩) cd ct avail ms bk).subj :=
        List.get_set_eq hs
      rw [hget, fname, fexam, frev, htops]
      exact hcomp i hi hk
    · have hget : (subs.set k (addRegularSession (subs.get ⟨k, hk⟩) cd ct avail ms
          bk).subj).get ⟨i, hs⟩ = subs.get ⟨i, hs0⟩ :=
        List.get_set_ne (Ne.symm hik) hs
      rw [hget]
      exact hcomp i hi hs0
  · -- one session for topic `kt`
    have hnewS : sessionsOf (addRegularSession (subs.get ⟨k, hk⟩) cd ct avail ms bk).events
        = [regSessionAt (subs.get ⟨k, hk⟩).name cd ct
            (min ms (min avail ((subs.get ⟨k, hk⟩).topics.get ⟨kt, hkt⟩).remaining_hours))
            ((subs.get ⟨k, hk⟩).topics.get ⟨kt, hkt⟩).name] := by
      rcases hevs with h | h <;> rw [h] <;> rfl
    set sess0 : Session := regSessionAt (subs.get ⟨k, hk⟩).name cd ct
        (min ms (min avail ((subs.get ⟨k, hk⟩).topics.get ⟨kt, hkt⟩).remaining_hours))
        ((subs.get ⟨k, hk⟩).topics.get ⟨kt, hkt⟩).name with hsess0
    have hstype : sess0.session_type = "regular" := rfl
    have hssubj : sess0.subject = (subs.get ⟨k, hk⟩).name := rfl
    have hstopic : sess0.topic = ((subs.get ⟨k, hk⟩).topics.get ⟨kt, hkt⟩).name := rfl
    have hsdur : sess0.duration_hours
        = min ms (min avail ((subs.get ⟨k, hk⟩).topics.get ⟨kt, hkt⟩).remaining_hours) := rfl
    have hrevnil : ∀ n : String, revSessionsFor n [sess0] = [] := fun n =>
      revSessionsFor_eq_nil n [sess0] (fun sess hsx => by
        rw [List.mem_singleton.mp hsx]
        exact revFor_false_of_regular _ _ hstype)
    rw [hnewS]
    refine ⟨by rw [List.length_set]; exact hlen, fun i hi hs => ?_⟩
    have hs0 : i < subs.length := by rw [List.length_set] at hs; exact hs
    by_cases hik : i = k
    · subst hik
      have hget : (subs.set i (addRegularSession (subs.get ⟨i, hk⟩) cd ct avail ms
          bk).subj).get ⟨i, hs⟩
          = (addRegularSession (subs.get ⟨i, hk⟩) cd ct avail ms bk).subj :=
        List.get_set_eq hs
      obtain ⟨-, -, -, h4, h5, h6, h7⟩ := hcomp i hi hk
      rw [hget, fname, fexam, frev, htops]
      refine ⟨hk1, hk2, by rw [List.length_set]; exact hk3, ?_, ?_, ?_, ?_⟩
      · intro j hj hj2
        have hjlen : j < (subs.get ⟨i, hk⟩).topics.length := by
          rw [List.length_set] at hj; exact hj
        by_cases hjk : j = kt
        · subst hjk
          have hgt : ((subs.get ⟨i, hk⟩).topics.set j t2).get ⟨j, hj⟩ = t2 :=
            List.get_set_eq hj
          have hktname : ((subs.get ⟨i, hk⟩).topics.get ⟨j, hjlen⟩).name
              = ((orig.get ⟨i, hi⟩).topics.get ⟨j, hj2⟩).name := (h4 j hjlen hj2).1
          have hproof : ((subs.get ⟨i, hk⟩).topics.get ⟨j, hkt⟩)
              = ((subs.get ⟨i, hk⟩).topics.get ⟨j, hjlen⟩) := rfl
          have hreg : regFor (orig.get ⟨i, hi⟩).name
              ((orig.get ⟨i, hi⟩).topics.get ⟨j, hj2⟩).name sess0 = true := by
            rw [hsess0]
            simp only [regFor, regSessionAt, hproof]
            rw [hk1, hktname]
            simp
          have hsum := (h4 j hjlen hj2).2.2
          have hdur_le : min ms (min avail
              ((subs.get ⟨i, hk⟩).topics.get ⟨j, hjlen⟩).remaining_hours)
              ≤ ((subs.get ⟨i, hk⟩).topics.get ⟨j, hjlen⟩).remaining_hours :=
            le_trans (min_le_right _ _) (min_le_right _ _)
          rw [hgt]
          refine ⟨htn.trans hktname, ?_, ?_⟩
          · rw [htr]; linarith
          · rw [sumRegFor_append, sumRegFor_singleton, if_pos hreg, htr, hsdur, hproof]
            linarith
        · have hgt : ((subs.get ⟨i, hk⟩).topics.set kt t2).get ⟨j, hj⟩
              = (subs.get ⟨i, hk⟩).topics.get ⟨j, hjlen⟩ :=
            List.get_set_ne (fun hc => hjk hc.symm) hj
          have hktorig : kt < (orig.get ⟨i, hi⟩).topics.length := hk3 ▸ hkt
          have hktname : ((subs.get ⟨i, hk⟩).topics.get ⟨kt, hkt⟩).name
              = ((orig.get ⟨i, hi⟩).topics.get ⟨kt, hktorig⟩).name :=
            (h4 kt hkt hktorig).1
          have hnames : ((orig.get ⟨i, hi⟩).topics.get ⟨kt, hktorig⟩).name
              ≠ ((orig.get ⟨i, hi⟩).topics.get ⟨j, hj2⟩).name :=
            topic_names_ne (orig.get ⟨i, hi⟩).topics
              (hT _ (List.get_mem orig _ _)) kt j hktorig hj2
              (fun hc => hjk hc.symm)
          have hreg : regFor (orig.get ⟨i, hi⟩).name
              ((orig.get ⟨i, hi⟩).topics.get ⟨j, hj2⟩).name sess0 = false := by
            rw [hsess0]
            simp only [regFor, regSessionAt, Bool.and_eq_false_iff]
            right
            rw [hktname]
            simpa using hnames
          obtain ⟨hn4, hr4, hs4⟩ := h4 j hjlen hj2
          rw [hgt]
          refine ⟨hn4, hr4, ?_⟩
          rw [sumRegFor_append, sumRegFor_singleton, if_neg (by rw [hreg]; simp)]
          linarith
      · intro hflag
        rw [revSessionsFor_append, hrevnil, List.append_nil]
        exact h5 hflag
      · rw [revSessionsFor_append, hrevnil, List.append_nil]
        exact h6
      · intro sess hsess hrf
        rcases List.mem_append.mp hsess with hsess | hsess
        · exact h7 sess hsess hrf
        · rw [List.mem_singleton.mp hsess] at hrf
          rw [revFor_false_of_regular _ _ hstype] at hrf
          cases hrf
    · have hget : (subs.set k (addRegularSession (subs.get ⟨k, hk⟩) cd ct avail ms
          bk).subj).get ⟨i, hs⟩ = subs.get ⟨i, hs0⟩ :=
        List.get_set_ne (Ne.symm hik) hs
      rw [hget]
      obtain ⟨h1, h2, h3, h4, h5, h6, h7⟩ := hcomp i hi hs0
      have hsubj_ne : sess0.subject ≠ (orig.get ⟨i, hi⟩).name := by
        rw [hssubj, hk1]
        exact names_ne orig hN k i hkorig hi (fun hc => hik hc.symm)
      have hregnil : ∀ tn, sumRegFor (orig.get ⟨i, hi⟩).name tn [sess0] = 0 := fun tn =>
        sumRegFor_eq_zero _ _ _ (fun sess hsx => by
          rw [List.mem_singleton.mp hsx]
          exact regFor_false_of_subject_ne _ _ _ hsubj_ne)
      have hrevnil2 : revSessionsFor (orig.get ⟨i, hi⟩).name [sess0] = [] :=
        revSessionsFor_eq_nil _ [sess0] (fun sess hsx => by
          rw [List.mem_singleton.mp hsx]
          exact revFor_false_of_subject_ne _ _ hsubj_ne)
      refine ⟨h1, h2, h3, ?_, ?_, ?_, ?_⟩
      · intro j hj hj2
        obtain ⟨hn4, hr4, hs4⟩ := h4 j hj hj2
        refine ⟨hn4, hr4, ?_⟩
        rw [sumRegFor_append, hregnil]
        linarith
      · intro hflag
        rw [revSessionsFor_append, hrevnil2, List.append_nil]
        exact h5 hflag
      · rw [revSessionsFor_append, hrevnil2, List.append_nil]
        exact h6
      · intro sess hsess hrf
        rcases List.mem_append.mp hsess with hsess | hsess
        · exact h7 sess hsess hrf
        · rw [List.mem_singleton.mp hsess] at hrf
          rw [revFor_false_of_subject_ne _ _ hsubj_ne] at hrf
          cases hrf

/-- A revision call on the subject at index `k` on its revision day
(followed by the engine's unconditional flag set) preserves the run
invariant: it emits at most five revision sessions, all dated
`exam_date - revision_days_before`, touches no topic state, and turns the
subject's `revision_completed` flag on. -/
theorem RunInv_revision_step (orig : List Subject) (prefs : StudyPreferences)
    (hN : (orig.map Subject.name).Nodup)
    (subs : List SubjData) (S : List Session)
    (hinv : RunInv orig prefs.revision_days_before subs S)
    (k : ℕ) (hk : k < subs.length) (cd : ℤ) (ct avail ms bk : ℚ)
    (hguard : needsRevisionToday prefs cd (subs.get ⟨k, hk⟩) = true) :
    RunInv orig prefs.revision_days_before
      (subs.set k { (addRevisionSession (subs.get ⟨k, hk⟩) cd ct avail ms bk).subj with
        revision_completed := true })
      (S ++ sessionsOf (addRevisionSession (subs.get ⟨k, hk⟩) cd ct avail ms bk).events) := by
  obtain ⟨hlen, hcomp⟩ := hinv
  have hkorig : k < orig.length := hlen ▸ hk
  obtain ⟨hk1, hk2, hk3, hk4, hk5, hk6, hk7⟩ := hcomp k hkorig hk
  -- unpack the guard
  obtain ⟨e, hexam, hcd, hflag0⟩ :
      ∃ e, (subs.get ⟨k, hk⟩).exam_date = some e
        ∧ cd = e - prefs.revision_days_before
        ∧ (subs.get ⟨k, hk⟩).revision_completed = false := by
    unfold needsRevisionToday at hguard
    cases hx : (subs.get ⟨k, hk⟩).exam_date with
    | none => rw [hx] at hguard; cases hguard
    | some e =>
      rw [hx] at hguard
      rw [Bool.and_eq_true] at hguard
      exact ⟨e, rfl, of_decide_eq_true hguard.1, by simpa using hguard.2⟩
  have hs2 : { (addRevisionSession (subs.get ⟨k, hk⟩) cd ct avail ms bk).subj with
      revision_completed := true }
      = { subs.get ⟨k, hk⟩ with revision_completed := true } := by
    rcases addRevisionSession_subj_cases (subs.get ⟨k, hk⟩) cd ct avail ms bk with h | h <;>
      rw [h]
  have hsess := addRevisionSession_sessions (subs.get ⟨k, hk⟩) cd ct avail ms bk
  have hcount := addRevisionSession_count (subs.get ⟨k, hk⟩) cd ct avail ms bk
  rw [hs2]
  refine ⟨by rw [List.length_set]; exact hlen, fun i hi hs => ?_⟩
  have hs0 : i < subs.length := by rw [List.length_set] at hs; exact hs
  by_cases hik : i = k
  · subst hik
    have hget : (subs.set i { subs.get ⟨i, hk⟩ with revision_completed := true }).get ⟨i, hs⟩
        = { subs.get ⟨i, hk⟩ with revision_completed := true } :=
      List.get_set_eq hs
    obtain ⟨-, -, -, h4, h5, h6, h7⟩ := hcomp i hi hk
    rw [hget]
    have hregnil : ∀ tn, sumRegFor (orig.get ⟨i, hi⟩).name tn
        (sessionsOf (addRevisionSession (subs.get ⟨i, hk⟩) cd ct avail ms bk).events)
          = 0 := fun tn =>
      sumRegFor_eq_zero _ _ _ (fun sess hsx => by
        simp only [regFor, (hsess sess hsx).1, Bool.and_eq_false_iff]
        left; left; rfl)
    refine ⟨hk1, hk2, hk3, ?_, ?_, ?_, ?_⟩
    · intro j hj hj2
      obtain ⟨hn4, hr4, hs4⟩ := h4 j hj hj2
      refine ⟨hn4, hr4, ?_⟩
      rw [sumRegFor_append, hregnil]
      linarith
    · intro hc
      cases hc
    · rw [revSessionsFor_append, h5 hflag0, List.nil_append]
      calc (revSessionsFor (orig.get ⟨i, hi⟩).name
            (sessionsOf (addRevisionSession (subs.get ⟨i, hk⟩) cd ct avail ms bk).events)).length
          ≤ (sessionsOf (addRevisionSession (subs.get ⟨i, hk⟩) cd ct avail ms
              bk).events).length := List.length_filter_le _ _
        _ ≤ min ((subs.get ⟨i, hk⟩).topics.filter fun t => !t.completed).length 5 := hcount
        _ ≤ 5 := min_le_right _ _
    · intro sess hsess2 hrf
      rcases List.mem_append.mp hsess2 with hmem | hmem
      · exact h7 sess hmem hrf
      · refine ⟨e, ?_, ?_⟩
        · rw [← hk2]; exact hexam
        · rw [(hsess sess hmem).2.2.1, hcd]
  · have hget : (subs.set k { subs.get ⟨k, hk⟩ with revision_completed := true }).get ⟨i, hs⟩
        = subs.get ⟨i, hs0⟩ :=
      List.get_set_ne (Ne.symm hik) hs
    rw [hget]
    obtain ⟨h1, h2, h3, h4, h5, h6, h7⟩ := hcomp i hi hs0
    have hsubj_ne : ∀ sess ∈ sessionsOf (addRevisionSession (subs.get ⟨k, hk⟩) cd ct avail
        ms bk).events, sess.subject ≠ (orig.get ⟨i, hi⟩).name := by
      intro sess hmem hc
      rw [(hsess sess hmem).2.1, hk1] at hc
      exact names_ne orig hN k i hkorig hi (fun hx => hik hx.symm) hc
    have hregnil : ∀ tn, sumRegFor (orig.get ⟨i, hi⟩).name tn
        (sessionsOf (addRevisionSession (subs.get ⟨k, hk⟩) cd ct avail ms bk).events)
          = 0 := fun tn =>
      sumRegFor_eq_zero _ _ _ (fun sess hsx =>
        regFor_false_of_subject_ne _ _ _ (hsubj_ne sess hsx))
    have hrevnil : revSessionsFor (orig.get ⟨i, hi⟩).name
        (sessionsOf (addRevisionSession (subs.get ⟨k, hk⟩) cd ct avail ms bk).events)
          = [] :=
      revSessionsFor_eq_nil _ _ (fun sess hsx =>
        revFor_false_of_subject_ne _ _ (hsubj_ne sess hsx))
    refine ⟨h1, h2, h3, ?_, ?_, ?_, ?_⟩
    · intro j hj hj2
      obtain ⟨hn4, hr4, hs4⟩ := h4 j hj hj2
      refine ⟨hn4, hr4, ?_⟩
      rw [sumRegFor_append, hregnil]
      linarith
    · intro hflag
      rw [revSessionsFor_append, hrevnil, List.append_nil]
      exact h5 hflag
    · rw [revSessionsFor_append, hrevnil, List.append_nil]
      exact h6
    · intro sess hsess2 hrf
      rcases List.mem_append.mp hsess2 with hmem | hmem
      · exact h7 sess hmem hrf
      · rw [revFor_false_of_subject_ne _ _ (hsubj_ne sess hmem)] at hrf
        cases hrf

/-- One pass-loop iteration preserves the run invariant, whichever
branch it takes. -/
theorem RunInv_passStep (orig : List Subject) (prefs : StudyPreferences)
    (hN : (orig.map Subject.name).Nodup)
    (hT : ∀ su ∈ orig, (su.topics.map Topic.name).Nodup)
    (mode : PassMode) (cd : ℤ) (S0 : List Session)
    (st : DayState) (i : ℕ)
    (hinv : RunP orig prefs.revision_days_before S0 st) :
    RunP orig prefs.revision_days_before S0 (passStep prefs mode cd st i) := by
  unfold RunP at hinv ⊢
  unfold passStep
  split
  · exact hinv
  · split
    · exact hinv
    · next s hs =>
      obtain ⟨hk, hseq⟩ := List.get?_eq_some.mp hs
      dsimp only
      split
      · next hrev =>
        dsimp only
        rw [sessionsOf_append, ← List.append_assoc]
        subst hseq
        exact RunInv_revision_step orig prefs hN st.subs _ hinv i hk cd st.clock
          (passTarget mode st.hoursLeft) prefs.session_duration prefs.break_duration hrev
      · dsimp only
        rw [sessionsOf_append, ← List.append_assoc]
        subst hseq
        exact RunInv_regular_step orig prefs.revision_days_before hN hT st.subs _ hinv i hk cd
          st.clock (passTarget mode st.hoursLeft) prefs.session_duration prefs.break_duration

/-- A full scheduled day preserves the run invariant, the day's sessions
appended to the running session list. -/
theorem RunInv_processDay (orig : List Subject) (prefs : StudyPreferences)
    (hN : (orig.map Subject.name).Nodup)
    (hT : ∀ su ∈ orig, (su.topics.map Topic.name).Nodup)
    (cd : ℤ) (subs : List SubjData) (S0 : List Session)
    (hinv : RunInv orig prefs.revision_days_before subs S0) :
    RunInv orig prefs.revision_days_before (processDay prefs cd subs).1
      (S0 ++ sessionsOf (processDay prefs cd subs).2) := by
  have h : RunP orig prefs.revision_days_before S0 (processDaySt prefs cd subs) := by
    simp only [processDaySt]
    apply foldl_inv _ _ (RunInv_passStep orig prefs hN hT .low cd S0)
    apply foldl_inv _ _ (RunInv_passStep orig prefs hN hT .med cd S0)
    apply foldl_inv _ _ (RunInv_passStep orig prefs hN hT .high cd S0)
    apply foldl_inv _ _ (RunInv_passStep orig prefs hN hT .urgent cd S0)
    unfold RunP
    simpa [sessionsOf_nil] using hinv
  unfold RunP at h
  simp only [processDay]
  exact h

/-- The end-of-day completion check changes at most `subject_completed`:
every field the run invariant reads is untouched. -/
theorem endOfDaySubject_fst_frame (cdN : ℤ) (s : SubjData) :
    (endOfDaySubject cdN s).1.name = s.name
    ∧ (endOfDaySubject cdN s).1.exam_date = s.exam_date
    ∧ (endOfDaySubject cdN s).1.topics = s.topics
    ∧ (endOfDaySubject cdN s).1.revision_completed = s.revision_completed := by
  unfold endOfDaySubject
  split
  · exact ⟨rfl, rfl, rfl, rfl⟩
  · dsimp only
    split
    · exact ⟨rfl, rfl, rfl, rfl⟩
    · exact ⟨rfl, rfl, rfl, rfl⟩

/-- The end-of-day sweep preserves the run invariant. -/
theorem RunInv_endOfDay (orig : List Subject) (rdb : ℤ) (cdN : ℤ)
    (subs : List SubjData) (S : List Session)
    (hinv : RunInv orig rdb subs S) :
    RunInv orig rdb (endOfDay cdN subs).1 S := by
  obtain ⟨hlen, hcomp⟩ := hinv
  have hlen2 : (endOfDay cdN subs).1.length = subs.length := by
    simp [endOfDay]
  refine ⟨by rw [hlen2]; exact hlen, fun i hi hs => ?_⟩
  have hs0 : i < subs.length := by rw [hlen2] at hs; exact hs
  have hget : (endOfDay cdN subs).1.get ⟨i, hs⟩
      = (endOfDaySubject cdN (subs.get ⟨i, hs0⟩)).1 := by
    simp [endOfDay]
  obtain ⟨f1, f2, f3, f4⟩ := endOfDaySubject_fst_frame cdN (subs.get ⟨i, hs0⟩)
  obtain ⟨h1, h2, h3, h4, h5, h6, h7⟩ := hcomp i hi hs0
  rw [hget, f1, f2, f3, f4]
  exact ⟨h1, h2, h3, h4, h5, h6, h7⟩

/-- The whole schedule loop preserves the run invariant, accumulating
the recorded days' sessions. -/
theorem RunInv_schedGo (orig : List Subject) (prefs : StudyPreferences)
    (hN : (orig.map Subject.name).Nodup)
    (hT : ∀ su ∈ orig, (su.topics.map Topic.name).Nodup) :
    ∀ (n : ℕ) (cd : ℤ) (subs : List SubjData) (S0 : List Session),
      RunInv orig prefs.revision_days_before subs S0 →
      RunInv orig prefs.revision_days_before (schedGo prefs cd n subs).finalSubs
        (S0 ++ allSessions (schedGo prefs cd n subs).daysE) := by
  intro n
  induction n with
  | zero =>
    intro cd subs S0 hinv
    simpa [schedGo, allSessions] using hinv
  | succ n ih =>
    intro cd subs S0 hinv
    simp only [schedGo]
    split
    · exact ih (cd + 1) subs S0 hinv
    · dsimp only
      have hpd := RunInv_processDay orig prefs hN hT cd subs S0 hinv
      have heod := RunInv_endOfDay orig prefs.revision_days_before (cd + 1) _ _ hpd
      by_cases hemp : sessionsOf (processDay prefs cd subs).2 = []
      · rw [if_pos hemp]
        rw [hemp, List.append_nil] at heod
        exact ih (cd + 1) _ S0 heod
      · rw [if_neg hemp]
        have hrest := ih (cd + 1) (endOfDay (cd + 1) (processDay prefs cd subs).1).1
          (S0 ++ sessionsOf (processDay prefs cd subs).2) heod
        have hcons : S0 ++ allSessions (⟨cd, (processDay prefs cd subs).2⟩
              :: (schedGo prefs (cd + 1) n
                  (endOfDay (cd + 1) (processDay prefs cd subs).1).1).daysE)
            = (S0 ++ sessionsOf (processDay prefs cd subs).2)
              ++ allSessions (schedGo prefs (cd + 1) n
                  (endOfDay (cd + 1) (processDay prefs cd subs).1).1).daysE := by
          simp [allSessions]
        rw [hcons]
        exact hrest

/-- The run invariant holds at the start: fresh engine records against an
empty session list, given nonnegative estimates. -/
theorem RunInv_init (orig : List Subject) (rdb : ℤ)
    (hE : ∀ su ∈ orig, ∀ t ∈ su.topics, 0 ≤ t.estimated_hours) :
    RunInv orig rdb (orig.map initSubject) [] := by
  refine ⟨by simp, fun i hi hs => ?_⟩
  have hget : (orig.map initSubject).get ⟨i, hs⟩ = initSubject (orig.get ⟨i, hi⟩) := by
    simp
  rw [hget]
  refine ⟨rfl, rfl, by simp [initSubject], ?_, fun _ => rfl, by simp [revSessionsFor], ?_⟩
  · intro j hj hj2
    have htj : (initSubject (orig.get ⟨i, hi⟩)).topics.get ⟨j, hj⟩
        = initTopic ((orig.get ⟨i, hi⟩).topics.get ⟨j, hj2⟩) := by
      simp [initSubject]
    rw [htj]
    refine ⟨rfl, ?_, ?_⟩
    · exact hE _ (List.get_mem orig i hi) _ (List.get_mem _ j hj2)
    · simp [sumRegFor_nil, initTopic]
  · intro sess hsess
    cases hsess

/-- The run invariant at the end of the whole plan. -/
theorem RunInv_plan (req : StudyPlanRequest)
    (hN : (req.subjects.map Subject.name).Nodup)
    (hT : ∀ su ∈ req.subjects, (su.topics.map Topic.name).Nodup)
    (hE : ∀ su ∈ req.subjects, ∀ t ∈ su.topics, 0 ≤ t.estimated_hours) :
    RunInv req.subjects req.preferences.revision_days_before
      (generateRuleBasedSchedule req.subjects req.start_date req.end_date
        req.preferences).finalSubs
      (allSessions (planDaysE req)) := by
  have h0 := RunInv_init req.subjects req.preferences.revision_days_before hE
  have h := RunInv_schedGo req.subjects req.preferences hN hT
    (rangeLen req.start_date req.end_date) req.start_date
    (req.subjects.map initSubject) [] h0
  simpa [generateRuleBasedSchedule, planDaysE] using h

/-! ## Session dates and day ordering (C4) -/

/-- Every session `_add_regular_session` emits carries the current
date. -/
theorem addRegularSession_dates (s : SubjData) (cd : ℤ) (ct avail ms bk : ℚ) :
    ∀ sess ∈ sessionsOf (addRegularSession s cd ct avail ms bk).events, sess.date = cd := by
  intro sess hsx
  rcases addRegularSession_spec s cd ct avail ms bk with ⟨he, -⟩ |
    ⟨k, hk, -, -, t2, -, -, -, -, hev⟩
  · rw [he] at hsx
    simp [sessionsOf] at hsx
  · rcases hev with hev | hev <;> rw [hev] at hsx <;> simp [sessionsOf] at hsx <;>
      rw [hsx] <;> rfl

/-- One pass-loop iteration only adds sessions dated today. -/
theorem passStep_dates (prefs : StudyPreferences) (mode : PassMode) (cd : ℤ)
    (st : DayState) (i : ℕ)
    (h : ∀ sess ∈ sessionsOf st.events, sess.date = cd) :
    ∀ sess ∈ sessionsOf (passStep prefs mode cd st i).events, sess.date = cd := by
  unfold passStep
  split
  · exact h
  · split
    · exact h
    · next s hs =>
      dsimp only
      split
      · dsimp only
        intro sess hsx
        rw [sessionsOf_append] at hsx
        rcases List.mem_append.mp hsx with h1 | h1
        · exact h sess h1
        · exact (addRevisionSession_sessions s cd st.clock _ _ _ sess h1).2.2.1
      · dsimp only
        intro sess hsx
        rw [sessionsOf_append] at hsx
        rcases List.mem_append.mp hsx with h1 | h1
        · exact h sess h1
        · exact addRegularSession_dates s cd st.clock _ _ _ sess h1

/-- Every session a day emits is dated that day. -/
theorem processDay_dates (prefs : StudyPreferences) (cd : ℤ) (subs : List SubjData) :
    ∀ sess ∈ sessionsOf (processDay prefs cd subs).2, sess.date = cd := by
  have h : ∀ sess ∈ sessionsOf (processDaySt prefs cd subs).events, sess.date = cd := by
    simp only [processDaySt]
    apply foldl_inv _ _ (passStep_dates prefs .low cd)
    apply foldl_inv _ _ (passStep_dates prefs .med cd)
    apply foldl_inv _ _ (passStep_dates prefs .high cd)
    apply foldl_inv _ _ (passStep_dates prefs .urgent cd)
    intro sess hsx
    simp [sessionsOf] at hsx
  simp only [processDay]
  exact h

set_option maxHeartbeats 1600000 in
/-- Recorded days carry dates at least the loop's current date, their
sessions are dated on them, and the dates strictly increase along the
recorded list. -/
theorem schedGo_days (prefs : StudyPreferences) :
    ∀ (n : ℕ) (cd : ℤ) (subs : List SubjData),
      (∀ d ∈ (schedGo prefs cd n subs).daysE,
          cd ≤ d.date ∧ ∀ sess ∈ sessionsOf d.events, sess.date = d.date)
      ∧ (schedGo prefs cd n subs).daysE.Pairwise fun a b => a.date < b.date := by
  intro n
  induction n with
  | zero =>
    intro cd subs
    refine ⟨fun d hd => absurd hd (by simp [schedGo]), ?_⟩
    simp only [schedGo]
    exact List.Pairwise.nil
  | succ n ih =>
    intro cd subs
    simp only [schedGo]
    split
    · refine ⟨fun d hd => ?_, (ih (cd + 1) subs).2⟩
      obtain ⟨h1, h2⟩ := (ih (cd + 1) subs).1 d hd
      exact ⟨by linarith, h2⟩
    · dsimp only
      by_cases hemp : sessionsOf (processDay prefs cd subs).2 = []
      · rw [if_pos hemp]
        refine ⟨fun d hd => ?_, (ih (cd + 1) _).2⟩
        obtain ⟨h1, h2⟩ := (ih (cd + 1) _).1 d hd
        exact ⟨by linarith, h2⟩
      · rw [if_neg hemp]
        constructor
        · intro d hd
          rcases List.mem_cons.mp hd with rfl | hd
          · exact ⟨le_refl _, processDay_dates prefs cd subs⟩
          · obtain ⟨h1, h2⟩ := (ih (cd + 1) _).1 d hd
            exact ⟨by linarith, h2⟩
        · refine List.Pairwise.cons ?_ (ih (cd + 1) _).2
          intro d hd
          have h1 := ((ih (cd + 1) _).1 d hd).1
          dsimp only
          linarith

/-- In a list of strictly increasing dates, members sharing a date
coincide. -/
theorem pairwise_date_inj (l : List DayOut)
    (hp : l.Pairwise fun a b => a.date < b.date) :
    ∀ d1 ∈ l, ∀ d2 ∈ l, d1.date = d2.date → d1 = d2 := by
  induction l with
  | nil =>
    intro d1 hd1
    cases hd1
  | cons a t ih =>
    obtain ⟨ha, ht⟩ := List.pairwise_cons.mp hp
    intro d1 hd1 d2 hd2 heq
    rcases List.mem_cons.mp hd1 with h1 | h1
    · rcases List.mem_cons.mp hd2 with h2 | h2
      · rw [h1, h2]
      · exfalso
        have hlt := ha d2 h2
        rw [h1] at heq
        exact ne_of_lt hlt heq
    · rcases List.mem_cons.mp hd2 with h2 | h2
      · exfalso
        have hlt := ha d1 h1
        rw [h2] at heq
        exact ne_of_lt hlt heq.symm
      · exact ih ht d1 h1 d2 h2 heq

/-- A nonempty revision filter exhibits a revision session. -/
theorem revSessionsFor_ne_nil (n : String) (S : List Session)
    (h : revSessionsFor n S ≠ []) : ∃ sess ∈ S, revFor n sess = true := by
  by_contra hc
  push_neg at hc
  refine h (revSessionsFor_eq_nil n S fun sess hsx => ?_)
  cases hx : revFor n sess
  · rfl
  · exact absurd hx (hc sess hsx)

/-- A session of a recorded day is one of the plan's sessions. -/
theorem mem_allSessions (days : List DayOut) (d : DayOut) (hd : d ∈ days)
    (sess : Session) (hs : sess ∈ sessionsOf d.events) : sess ∈ allSessions days := by
  unfold allSessions
  exact List.mem_flatMap.mpr ⟨d, hd, hs⟩

/-- Claim C4: for every subject with an exam date, every revision-type
session emitted for it across the whole plan is dated exactly
`exam_date - revision_days_before`, and the revision batch happens at
most once: any two recorded days containing revision sessions for the
subject are the same day.  (Name uniqueness and nonnegative estimates
are the spec's data-model assumptions.) -/
theorem claim_C4_revision_day (req : StudyPlanRequest)
    (hN : (req.subjects.map Subject.name).Nodup)
    (hT : ∀ su ∈ req.subjects, (su.topics.map Topic.name).Nodup)
    (hE : ∀ su ∈ req.subjects, ∀ t ∈ su.topics, 0 ≤ t.estimated_hours) :
    ∀ su ∈ req.subjects, ∀ e : ℤ, su.exam_date = some e →
      (∀ sess ∈ allSessions (planDaysE req), revFor su.name sess = true →
          sess.date = e - req.preferences.revision_days_before)
      ∧ ∀ d1 ∈ planDaysE req, ∀ d2 ∈ planDaysE req,
          revSessionsFor su.name (sessionsOf d1.events) ≠ [] →
          revSessionsFor su.name (sessionsOf d2.events) ≠ [] → d1 = d2 := by
  intro su hsu e he
  obtain ⟨⟨i, hi⟩, hgi⟩ := List.mem_iff_get.mp hsu
  subst hgi
  obtain ⟨hlen, hcomp⟩ := RunInv_plan req hN hT hE
  have hs : i < (generateRuleBasedSchedule req.subjects req.start_date req.end_date
      req.preferences).finalSubs.length := by rw [hlen]; exact hi
  obtain ⟨-, -, -, -, -, -, h7⟩ := hcomp i hi hs
  have hdate : ∀ sess ∈ allSessions (planDaysE req),
      revFor (req.subjects.get ⟨i, hi⟩).name sess = true →
        sess.date = e - req.preferences.revision_days_before := by
    intro sess hmem hrf
    obtain ⟨e2, he2, hd2⟩ := h7 sess hmem hrf
    rw [he] at he2
    obtain rfl : e2 = e := (Option.some.inj he2).symm
    exact hd2
  refine ⟨hdate, ?_⟩
  have hsched := schedGo_days req.preferences (rangeLen req.start_date req.end_date)
    req.start_date (req.subjects.map initSubject)
  have hplan : planDaysE req = (schedGo req.preferences req.start_date
      (rangeLen req.start_date req.end_date) (req.subjects.map initSubject)).daysE := by
    simp [planDaysE, generateRuleBasedSchedule]
  have hp : (planDaysE req).Pairwise fun a b => a.date < b.date := by
    rw [hplan]
    exact hsched.2
  intro d1 hd1 d2 hd2 hne1 hne2
  obtain ⟨sess1, hm1, hr1⟩ := revSessionsFor_ne_nil _ _ hne1
  obtain ⟨sess2, hm2, hr2⟩ := revSessionsFor_ne_nil _ _ hne2
  have hds1 := (hsched.1 d1 (by rw [hplan] at hd1; exact hd1)).2 sess1 hm1
  have hds2 := (hsched.1 d2 (by rw [hplan] at hd2; exact hd2)).2 sess2 hm2
  have ha1 : sess1.date = e - req.preferences.revision_days_before :=
    hdate sess1 (mem_allSessions _ d1 hd1 sess1 hm1) hr1
  have ha2 : sess2.date = e - req.preferences.revision_days_before :=
    hdate sess2 (mem_allSessions _ d2 hd2 sess2 hm2) hr2
  apply pairwise_date_inj _ hp d1 hd1 d2 hd2
  rw [← hds1, ← hds2, ha1, ha2]

/-- Witness for C4 on a concrete plan: one five-topic subject examined on
day 2, revised two days before, over the three-day range. -/
theorem claim_C4_witness :
    (∀ sess ∈ allSessions (planDaysE reqC4), revFor subjRev.name sess = true →
        sess.date = 2 - reqC4.preferences.revision_days_before)
    ∧ ∀ d1 ∈ planDaysE reqC4, ∀ d2 ∈ planDaysE reqC4,
        revSessionsFor subjRev.name (sessionsOf d1.events) ≠ [] →
        revSessionsFor subjRev.name (sessionsOf d2.events) ≠ [] → d1 = d2 :=
  claim_C4_revision_day reqC4 (by with_unfolding_all decide)
    (by with_unfolding_all decide) (by with_unfolding_all decide)
    subjRev (by with_unfolding_all decide) 2 (by with_unfolding_all decide)

/-- Claim C6: across the whole plan, the regular-session hours charged to
any topic never exceed the topic's estimated hours — exactly, which
implies the claimed 0.01 tolerance; equivalently the engine's
`remaining_hours` bookkeeping stays nonnegative, which is the invariant
the proof carries.  (Name uniqueness and nonnegative estimates are the
spec's data-model assumptions.) -/
theorem claim_C6_topic_hours (req : StudyPlanRequest)
    (hN : (req.subjects.map Subject.name).Nodup)
    (hT : ∀ su ∈ req.subjects, (su.topics.map Topic.name).Nodup)
    (hE : ∀ su ∈ req.subjects, ∀ t ∈ su.topics, 0 ≤ t.estimated_hours) :
    ∀ su ∈ req.subjects, ∀ t ∈ su.topics,
      sumRegFor su.name t.name (allSessions (planDaysE req)) ≤ t.estimated_hours := by
  intro su hsu t ht
  obtain ⟨⟨i, hi⟩, hgi⟩ := List.mem_iff_get.mp hsu
  subst hgi
  obtain ⟨⟨j, hj⟩, hgj⟩ := List.mem_iff_get.mp ht
  subst hgj
  obtain ⟨hlen, hcomp⟩ := RunInv_plan req hN hT hE
  have hs : i < (generateRuleBasedSchedule req.subjects req.start_date req.end_date
      req.preferences).finalSubs.length := by rw [hlen]; exact hi
  obtain ⟨-, -, h3, h4, -, -, -⟩ := hcomp i hi hs
  have hj' : j < ((generateRuleBasedSchedule req.subjects req.start_date req.end_date
      req.preferences).finalSubs.get ⟨i, hs⟩).topics.length := by
    rw [h3]
    exact hj
  obtain ⟨-, hr0, hsum⟩ := h4 j hj' hj
  linarith

/-- Witness for C6 on `reqSmall`: the hours charged to its one topic stay
within that topic's single estimated hour. -/
theorem claim_C6_witness :
    sumRegFor "S" "T" (allSessions (planDaysE reqSmall)) ≤ 1 :=
  claim_C6_topic_hours reqSmall (by with_unfolding_all decide)
    (by with_unfolding_all decide) (by with_unfolding_all decide)
    { name := "S", topics := [⟨"T", 1, 3, false⟩], exam_date := none,
      importance := .Medium, difficulty := 3 }
    (by with_unfolding_all decide)
    ⟨"T", 1, 3, false⟩ (by with_unfolding_all decide)

/-! ## Demand and availability totals (C9) -/

theorem subjectHoursNeeded_eq (s : Subject) :
    subjectHoursNeeded s
      = (s.topics.map Topic.estimated_hours).sum * (if s.exam_date.isSome then 3/2 else 1) := by
  unfold subjectHoursNeeded
  split
  · ring
  · ring

/-- The availability loop equals the sum of the day budgets over the
non-break dates of the range. -/
theorem availGo_eq (prefs : StudyPreferences) :
    ∀ (n : ℕ) (cd : ℤ),
      availGo prefs cd n
        = (((((List.range n).map fun (k : ℕ) => cd + (k : ℤ)).filter
              fun d => !prefs.break_days.contains d)).map (dayBudget prefs)).sum := by
  intro n
  induction n with
  | zero => intro cd; rfl
  | succ n ih =>
    intro cd
    rw [List.range_succ_eq_map]
    have hmap : ((List.range n).map Nat.succ).map (fun (k : ℕ) => cd + (k : ℤ))
        = (List.range n).map fun (k : ℕ) => (cd + 1) + (k : ℤ) := by
      rw [List.map_map]
      congr 1
      funext k
      simp only [Function.comp_apply, Nat.succ_eq_add_one]
      push_cast
      ring
    simp only [List.map_cons, hmap, Nat.cast_zero, add_zero, List.filter_cons]
    cases hb : prefs.break_days.contains cd with
    | true =>
      have hmem : cd ∈ prefs.break_days := by simpa using hb
      simp [availGo, hb, hmem, ih (cd + 1)]
    | false =>
      have hmem : cd ∉ prefs.break_days := by simpa using hb
      simp [availGo, hb, hmem, ih (cd + 1)]

/-- Claim C9: `total_hours_needed` is the per-subject topic-hour sum with
an exact 1.5 factor for subjects that have an exam date;
`available_hours` sums `weekday_hours`/`weekend_hours` over the non-break
days of the inclusive range; and `insufficient_time` holds exactly when
available hours fall strictly below the needed total. -/
theorem claim_C9_totals (req : StudyPlanRequest) :
    (generateStudyPlan req).total_hours_needed
      = (req.subjects.map fun s =>
          (s.topics.map Topic.estimated_hours).sum
            * (if s.exam_date.isSome then 3/2 else 1)).sum
    ∧ (generateStudyPlan req).available_hours
      = ((((rangeDates req.start_date req.end_date).filter
            fun d => !req.preferences.break_days.contains d)).map
          (dayBudget req.preferences)).sum
    ∧ ((generateStudyPlan req).insufficient_time = true
        ↔ (generateStudyPlan req).available_hours
            < (generateStudyPlan req).total_hours_needed) := by
  refine ⟨?_, ?_, ?_⟩
  · show totalHoursNeeded req.subjects = _
    unfold totalHoursNeeded
    induction req.subjects with
    | nil => rfl
    | cons s l ih => simp [subjectHoursNeeded_eq, ih]
  · show availableHours req.preferences req.start_date req.end_date = _
    unfold availableHours rangeDates
    exact availGo_eq req.preferences (rangeLen req.start_date req.end_date) req.start_date
  · show decide (_ < _) = true ↔ _
    exact decide_eq_true_iff

end StudyPlanner
